import Mathlib

/-!
Verification of the FLTK text-buffer / tree-item excerpt (`Fl_Text_Buffer.H`,
`Fl_Tree_Item.H`) against its natural-language specification.

The repository ships only the two header files.  Member functions whose
bodies appear inline in the headers are translated directly; member
functions that are merely declared (their `.cxx` bodies are not part of the
excerpt) are modelled from the specification text and the header's own
documentation comments, and are marked `Modelled from the spec:` in their
doc strings.

Conventions of the embedding:
* C++ `int` byte offsets are modelled as `Nat` (the public entry points of
  the buffer clamp their arguments into `[0, length()]`, so the reachable
  values are non-negative);
* the physical character store `char *mBuf` is a `List Nat` of bytes;
* the unused bytes inside the gap are modelled as `0` (they are never read:
  `address` skips the gap).
-/

namespace FltkGo

/-! ## Fl_Tree_Item: flag bitset

From `Fl_Tree_Item.H`.  The flag enumeration and the `set_flag` / `is_flag`
accessors are inline in the header and are translated verbatim.  `_flags`
is an `unsigned short`; we model it as a `Nat` (the masks used only touch
the low four bits, and `~flag` on a 16-bit field is the 16-bit complement).
-/

namespace FlTreeItem

/-- Flag `OPEN = 1<<0` of enum `Fl_Tree_Item_Flags`. -/
def OPEN : Nat := 1

/-- Flag `VISIBLE = 1<<1` of enum `Fl_Tree_Item_Flags`. -/
def VISIBLE : Nat := 2

/-- Flag `ACTIVE = 1<<2` of enum `Fl_Tree_Item_Flags`. -/
def ACTIVE : Nat := 4

/-- Flag `SELECTED = 1<<3` of enum `Fl_Tree_Item_Flags`. -/
def SELECTED : Nat := 8

/-- The 16-bit complement of a mask, as produced by `~flag` applied to the
`unsigned short` field `_flags`. -/
def mask_not (flag : Nat) : Nat := 0xFFFF ^^^ flag

/-- Inline in `Fl_Tree_Item.H`:
`if ( val ) _flags |= flag; else _flags &= ~flag;`
(the `recalc_tree()` call only touches tree geometry, not `_flags`). -/
def set_flag (flags : Nat) (flag : Nat) (val : Nat) : Nat :=
  if val ≠ 0 then flags ||| flag else flags &&& mask_not flag

/-- Inline in `Fl_Tree_Item.H`: `return(_flags & val ? 1 : 0);`. -/
def is_flag (flags : Nat) (val : Nat) : Nat :=
  if flags &&& val ≠ 0 then 1 else 0

/-- The four flag values are exactly the powers of two `2^0 .. 2^3`. -/
def isTreeFlag (f : Nat) : Prop := f = OPEN ∨ f = VISIBLE ∨ f = ACTIVE ∨ f = SELECTED

theorem land_two_pow_ne_zero (s i : Nat) : (s &&& 2 ^ i ≠ 0) ↔ s.testBit i := by
  rw [Nat.and_two_pow]
  rcases h : s.testBit i with _ | _ <;> simp [h]

theorem isTreeFlag_pow {f : Nat} (hf : isTreeFlag f) :
    f = 2 ^ 0 ∨ f = 2 ^ 1 ∨ f = 2 ^ 2 ∨ f = 2 ^ 3 := by
  rcases hf with h | h | h | h <;> simp [h, OPEN, VISIBLE, ACTIVE, SELECTED]

theorem is_flag_pow (s i : Nat) : is_flag s (2 ^ i) = if s.testBit i then 1 else 0 := by
  rw [is_flag]
  rcases h : s.testBit i with _ | _ <;>
    simp [land_two_pow_ne_zero, h]

theorem testBit_set_flag_same (s i : Nat) (v : Nat) (hi : i < 16) :
    (set_flag s (2 ^ i) v).testBit i = (v ≠ 0) := by
  rcases Decidable.em (v ≠ 0) with hv | hv
  · simp [set_flag, hv, Nat.testBit_lor, Nat.testBit_two_pow_self]
  · have h65535 : (0xFFFF : Nat).testBit i = true := by
      have h : (0xFFFF : Nat) = 2 ^ 16 - 1 := by norm_num
      rw [h, Nat.testBit_two_pow_sub_one]
      simpa using hi
    simp only [set_flag, hv, if_neg, ite_false]
    simp only [ne_eq, not_not] at hv
    simp [hv, mask_not, Nat.testBit_land, Nat.testBit_xor, h65535,
      Nat.testBit_two_pow_self]

theorem testBit_set_flag_other (s i j : Nat) (v : Nat) (hij : i ≠ j) (hj : j < 16) :
    (set_flag s (2 ^ i) v).testBit j = s.testBit j := by
  rcases Decidable.em (v ≠ 0) with hv | hv
  · simp [set_flag, hv, Nat.testBit_lor, Nat.testBit_two_pow_of_ne hij]
  · have h65535 : (0xFFFF : Nat).testBit j = true := by
      have : (0xFFFF : Nat) = 2 ^ 16 - 1 := by norm_num
      rw [this, Nat.testBit_two_pow_sub_one]
      simpa using hj
    simp [set_flag, hv, mask_not, Nat.testBit_land, Nat.testBit_xor, h65535,
      Nat.testBit_two_pow_of_ne hij]

/-- Inline in `Fl_Tree_Item.H`: `select(val)` is `set_flag(SELECTED, val)`. -/
def select (flags : Nat) (val : Nat := 1) : Nat := set_flag flags SELECTED val

/-- Inline in `Fl_Tree_Item.H`: `deselect()` is `set_flag(SELECTED, 0)`. -/
def deselect (flags : Nat) : Nat := set_flag flags SELECTED 0

/-- Inline in `Fl_Tree_Item.H`: `is_selected()` is `is_flag(SELECTED)`. -/
def is_selected (flags : Nat) : Nat := is_flag flags SELECTED

/-- Inline in `Fl_Tree_Item.H`: `activate(val)` sets `set_flag(ACTIVE,val)`
(the rest of the body only forwards the state to the optional embedded
widget, which has no flags of its own). -/
def activate (flags : Nat) (val : Nat := 1) : Nat := set_flag flags ACTIVE val

/-- Inline in `Fl_Tree_Item.H`: `deactivate()` is `activate(0)`. -/
def deactivate (flags : Nat) : Nat := activate flags 0

/-- Modelled from the spec: the body of `Fl_Tree_Item::open()` is not in the
excerpt (only its declaration).  Per the header documentation it marks the
item open, i.e. sets the `OPEN` flag. -/
def open_item (flags : Nat) : Nat := set_flag flags OPEN 1

/-- Modelled from the spec: the body of `Fl_Tree_Item::close()` is not in
the excerpt (only its declaration).  Per the header documentation it marks
the item closed, i.e. clears the `OPEN` flag. -/
def close_item (flags : Nat) : Nat := set_flag flags OPEN 0

/-! ### The item hierarchy

`Fl_Tree_Item` dynamically manages an array of children that are themselves
items.  Only the `_flags` field and the `_children` array matter for the
claims below, so an item is modelled as its flag word together with its
list of children. -/

mutual

inductive Item : Type where
  | mk : Nat → ItemList → Item

inductive ItemList : Type where
  | nil : ItemList
  | cons : Item → ItemList → ItemList

end

/-- The flag word `_flags` of an item. -/
def Item.flags : Item → Nat
  | .mk f _ => f

/-- The `_children` array of an item. -/
def Item.children : Item → ItemList
  | .mk _ c => c

mutual

/-- Inline in `Fl_Tree_Item.H`:
`int select_all() { int count = 0; if (!is_selected()) { select(); ++count; }`
`for (t=0; t<children(); t++) count += child(t)->select_all(); return count; }`
returning both the count and the updated subtree. -/
def select_all : Item → Nat × Item
  | .mk flags children =>
    let self := if is_selected flags = 0 then (1, select flags 1) else (0, flags)
    let rest := select_all_list children
    (self.1 + rest.1, .mk self.2 rest.2)

def select_all_list : ItemList → Nat × ItemList
  | .nil => (0, .nil)
  | .cons t ts =>
    let rt := select_all t
    let rts := select_all_list ts
    (rt.1 + rts.1, .cons rt.2 rts.2)

end

mutual

/-- Inline in `Fl_Tree_Item.H`:
`int deselect_all() { int count = 0; if (is_selected()) { deselect(); ++count; }`
`for (t=0; t<children(); t++) count += child(t)->deselect_all(); return count; }`
returning both the count and the updated subtree. -/
def deselect_all : Item → Nat × Item
  | .mk flags children =>
    let self := if is_selected flags = 1 then (1, deselect flags) else (0, flags)
    let rest := deselect_all_list children
    (self.1 + rest.1, .mk self.2 rest.2)

def deselect_all_list : ItemList → Nat × ItemList
  | .nil => (0, .nil)
  | .cons t ts =>
    let rt := deselect_all t
    let rts := deselect_all_list ts
    (rt.1 + rts.1, .cons rt.2 rts.2)

end

mutual

/-- Number of items in the subtree whose `SELECTED` flag is clear. -/
def countUnselected : Item → Nat
  | .mk flags children =>
    (if is_selected flags = 0 then 1 else 0) + countUnselectedList children

def countUnselectedList : ItemList → Nat
  | .nil => 0
  | .cons t ts => countUnselected t + countUnselectedList ts

end

mutual

/-- Number of items in the subtree whose `SELECTED` flag is set. -/
def countSelected : Item → Nat
  | .mk flags children =>
    (if is_selected flags = 1 then 1 else 0) + countSelectedList children

def countSelectedList : ItemList → Nat
  | .nil => 0
  | .cons t ts => countSelected t + countSelectedList ts

end

mutual

/-- Every item of the subtree satisfies `is_selected()`. -/
def allSelected : Item → Bool
  | .mk flags children => decide (is_selected flags = 1) && allSelectedList children

def allSelectedList : ItemList → Bool
  | .nil => true
  | .cons t ts => allSelected t && allSelectedList ts

end

mutual

/-- No item of the subtree satisfies `is_selected()`. -/
def noneSelected : Item → Bool
  | .mk flags children => decide (is_selected flags = 0) && noneSelectedList children

def noneSelectedList : ItemList → Bool
  | .nil => true
  | .cons t ts => noneSelected t && noneSelectedList ts

end

theorem is_selected_select_one (flags : Nat) : is_selected (select flags 1) = 1 := by
  show is_flag (set_flag flags (2 ^ 3) 1) (2 ^ 3) = 1
  have h := testBit_set_flag_same flags 3 1 (by decide)
  norm_num at h
  rw [is_flag_pow]
  simp [h]

theorem is_selected_deselect (flags : Nat) : is_selected (deselect flags) = 0 := by
  show is_flag (set_flag flags (2 ^ 3) 0) (2 ^ 3) = 0
  have h := testBit_set_flag_same flags 3 0 (by decide)
  norm_num at h
  rw [is_flag_pow]
  simp [h]

theorem is_selected_cases (flags : Nat) :
    is_selected flags = 0 ∨ is_selected flags = 1 := by
  unfold is_selected is_flag
  rcases Decidable.em (flags &&& SELECTED ≠ 0) with h | h <;> simp [h]

mutual

theorem select_all_spec : ∀ t : Item,
    (select_all t).1 = countUnselected t ∧ allSelected (select_all t).2 = true
  | .mk flags children => by
    have hrest := select_all_list_spec children
    rcases is_selected_cases flags with h | h <;>
      simp [select_all, countUnselected, allSelected, h, hrest.1, hrest.2,
        is_selected_select_one]

theorem select_all_list_spec : ∀ l : ItemList,
    (select_all_list l).1 = countUnselectedList l ∧
      allSelectedList (select_all_list l).2 = true
  | .nil => by simp [select_all_list, countUnselectedList, allSelectedList]
  | .cons t ts => by
    have ht := select_all_spec t
    have hts := select_all_list_spec ts
    simp [select_all_list, countUnselectedList, allSelectedList,
      ht.1, ht.2, hts.1, hts.2]

end

mutual

theorem deselect_all_spec : ∀ t : Item,
    (deselect_all t).1 = countSelected t ∧ noneSelected (deselect_all t).2 = true
  | .mk flags children => by
    have hrest := deselect_all_list_spec children
    rcases is_selected_cases flags with h | h <;>
      simp [deselect_all, countSelected, noneSelected, h, hrest.1, hrest.2,
        is_selected_deselect]

theorem deselect_all_list_spec : ∀ l : ItemList,
    (deselect_all_list l).1 = countSelectedList l ∧
      noneSelectedList (deselect_all_list l).2 = true
  | .nil => by simp [deselect_all_list, countSelectedList, noneSelectedList]
  | .cons t ts => by
    have ht := deselect_all_spec t
    have hts := deselect_all_list_spec ts
    simp [deselect_all_list, countSelectedList, noneSelectedList,
      ht.1, ht.2, hts.1, hts.2]

end

theorem is_flag_set_flag_self (s i v : Nat) (hi : i < 16) (hv : v = 0 ∨ v = 1) :
    is_flag (set_flag s (2 ^ i) v) (2 ^ i) = v := by
  simp only [is_flag_pow, testBit_set_flag_same s i v hi]
  rcases hv with h1 | h1 <;> simp [h1]

theorem is_flag_set_flag_of_ne (s i j v : Nat) (hij : i ≠ j) (hj : j < 16) :
    is_flag (set_flag s (2 ^ i) v) (2 ^ j) = is_flag s (2 ^ j) := by
  simp only [is_flag_pow, testBit_set_flag_other s i j v hij hj]

theorem is_flag_set_flag_treeflag (s v : Nat) {f g : Nat} (hf : isTreeFlag f)
    (hg : isTreeFlag g) (hne : g ≠ f) :
    is_flag (set_flag s f v) g = is_flag s g := by
  rcases isTreeFlag_pow hf with h | h | h | h <;>
    rcases isTreeFlag_pow hg with h2 | h2 | h2 | h2 <;>
      subst h <;> subst h2 <;>
        first
          | exact absurd rfl hne
          | exact is_flag_set_flag_of_ne s _ _ v (by decide) (by decide)

theorem is_flag_set_flag_self_treeflag (s v : Nat) {f : Nat} (hf : isTreeFlag f)
    (hv : v = 0 ∨ v = 1) :
    is_flag (set_flag s f v) f = v := by
  rcases isTreeFlag_pow hf with h | h | h | h <;> subst h <;>
    exact is_flag_set_flag_self s _ v (by decide) hv

/-- C7: A tree item's state is a bitset of exactly the four flags
{open, visible, active, selected}: `set_flag(f, v)` makes `is_flag(f)` equal
to `v` and leaves every other flag `g` unchanged; consequently each of
`select()`/`deselect()`, `open()`/`close()`, `activate()`/`deactivate()`
changes only its own flag among the four. -/
theorem set_flag_bitset (s v f g : Nat) (hf : isTreeFlag f) (hg : isTreeFlag g)
    (hv : v = 0 ∨ v = 1) (hne : g ≠ f) :
    (is_flag (set_flag s f v) f = v ∧ is_flag (set_flag s f v) g = is_flag s g)
    ∧ (g ≠ SELECTED → is_flag (select s v) g = is_flag s g
        ∧ is_flag (deselect s) g = is_flag s g)
    ∧ (g ≠ OPEN → is_flag (open_item s) g = is_flag s g
        ∧ is_flag (close_item s) g = is_flag s g)
    ∧ (g ≠ ACTIVE → is_flag (activate s v) g = is_flag s g
        ∧ is_flag (deactivate s) g = is_flag s g) := by
  have hSel : isTreeFlag SELECTED := Or.inr (Or.inr (Or.inr rfl))
  have hOp : isTreeFlag OPEN := Or.inl rfl
  have hAct : isTreeFlag ACTIVE := Or.inr (Or.inr (Or.inl rfl))
  refine ⟨⟨is_flag_set_flag_self_treeflag s v hf hv,
    is_flag_set_flag_treeflag s v hf hg hne⟩, ?_, ?_, ?_⟩
  · intro hgs
    exact ⟨is_flag_set_flag_treeflag s v hSel hg hgs,
      is_flag_set_flag_treeflag s 0 hSel hg hgs⟩
  · intro hgo
    exact ⟨is_flag_set_flag_treeflag s 1 hOp hg hgo,
      is_flag_set_flag_treeflag s 0 hOp hg hgo⟩
  · intro hga
    exact ⟨is_flag_set_flag_treeflag s v hAct hg hga,
      is_flag_set_flag_treeflag s 0 hAct hg hga⟩

/-- Witness for C7: instantiated at `_flags = 5`, `f = OPEN`, `g = SELECTED`,
`v = 0`. -/
theorem set_flag_bitset_witness :
    (isTreeFlag OPEN ∧ isTreeFlag SELECTED ∧ ((0:Nat) = 0 ∨ (0:Nat) = 1)
      ∧ SELECTED ≠ OPEN)
    ∧ ((is_flag (set_flag 5 OPEN 0) OPEN = 0
        ∧ is_flag (set_flag 5 OPEN 0) SELECTED = is_flag 5 SELECTED)
      ∧ (SELECTED ≠ SELECTED → is_flag (select 5 0) SELECTED = is_flag 5 SELECTED
          ∧ is_flag (deselect 5) SELECTED = is_flag 5 SELECTED)
      ∧ (SELECTED ≠ OPEN → is_flag (open_item 5) SELECTED = is_flag 5 SELECTED
          ∧ is_flag (close_item 5) SELECTED = is_flag 5 SELECTED)
      ∧ (SELECTED ≠ ACTIVE → is_flag (activate 5 0) SELECTED = is_flag 5 SELECTED
          ∧ is_flag (deactivate 5) SELECTED = is_flag 5 SELECTED)) :=
  ⟨⟨Or.inl rfl, Or.inr (Or.inr (Or.inr rfl)), Or.inl rfl, by decide⟩,
    set_flag_bitset 5 0 OPEN SELECTED (Or.inl rfl) (Or.inr (Or.inr (Or.inr rfl)))
      (Or.inl rfl) (by decide)⟩

/-- C10: after `select_all()` the item and every descendant satisfy
`is_selected()`, and the returned count is the number of items of the
subtree that were not selected before the call; dually `deselect_all()`
leaves no item of the subtree selected and returns the number of items
that were selected before the call. -/
theorem select_all_deselect_all_spec (t : Item) :
    ((select_all t).1 = countUnselected t ∧ allSelected (select_all t).2 = true)
    ∧ ((deselect_all t).1 = countSelected t
        ∧ noneSelected (deselect_all t).2 = true) :=
  ⟨select_all_spec t, deselect_all_spec t⟩

end FlTreeItem

/-! ## Fl_Text_Selection

From `Fl_Text_Buffer.H`.  The accessors `start()`, `end()`, `selected()`,
`selected(bool)` and `length()` are inline in the header and translated
verbatim.  `set()` and `update()` are only declared there; they are
modelled from the spec ("Selection: (start,end,selected) with start<end
when selected, else treated as empty at 0"; selections are "updated on
every edit" with "offsets after the edit shifted by nInserted - nDeleted")
and from the header's documented invariants. -/

/-- The state of `Fl_Text_Selection`: byte offsets `mStart`, `mEnd` and the
`mSelected` flag. -/
structure FlTextSelection where
  mStart : Nat
  mEnd : Nat
  mSelected : Bool
deriving Repr, DecidableEq

namespace FlTextSelection

/-- Inline in the header: `int start() const { return mSelected ? mStart : 0; }`. -/
def start (s : FlTextSelection) : Nat := if s.mSelected then s.mStart else 0

/-- Inline in the header: `int end() const { return mSelected ? mEnd : 0; }`
(named `end_` because `end` is reserved in Lean). -/
def end_ (s : FlTextSelection) : Nat := if s.mSelected then s.mEnd else 0

/-- Inline in the header: `bool selected() const { return mSelected; }`. -/
def selected (s : FlTextSelection) : Bool := s.mSelected

/-- Inline in the header: `void selected(bool b) { mSelected = b; }`. -/
def selected_set (s : FlTextSelection) (b : Bool) : FlTextSelection :=
  { s with mSelected := b }

/-- Inline in the header:
`int length() const { return mSelected ? mEnd - mStart : 0; }`. -/
def length (s : FlTextSelection) : Nat := if s.mSelected then s.mEnd - s.mStart else 0

/-- Modelled from the spec: the body of `Fl_Text_Selection::set` is not in
the excerpt.  It stores the selection range in ascending order and marks
the selection active exactly when the range is non-degenerate, which is
what the documented invariants (`start() < end()` when `selected()`)
require of it. -/
def set (s : FlTextSelection) (startpos endpos : Nat) : FlTextSelection :=
  { s with
    mStart := min startpos endpos
    mEnd := max startpos endpos
    mSelected := startpos ≠ endpos }

/-- Modelled from the spec: the body of `Fl_Text_Selection::update` is not
in the excerpt.  It adjusts the stored range for an edit at `pos` that
deleted `nDeleted` and inserted `nInserted` bytes: offsets after the edit
are shifted by `nInserted - nDeleted`, a selection entirely inside the
deleted range collapses and deselects, and a selection overlapping the
deleted range is trimmed (deselecting it if it becomes empty). -/
def update (s : FlTextSelection) (pos nDeleted nInserted : Nat) : FlTextSelection :=
  if ¬(s.mSelected = true) ∨ pos > s.mEnd then s
  else if pos + nDeleted ≤ s.mStart then
    { s with mStart := s.mStart + nInserted - nDeleted
           , mEnd := s.mEnd + nInserted - nDeleted }
  else if pos ≤ s.mStart ∧ s.mEnd ≤ pos + nDeleted then
    { mStart := pos, mEnd := pos, mSelected := false }
  else if pos ≤ s.mStart ∧ pos + nDeleted < s.mEnd then
    { s with mStart := pos, mEnd := nInserted + s.mEnd - nDeleted }
  else if pos < s.mEnd then
    { s with mEnd := s.mEnd + nInserted - nDeleted
           , mSelected := if s.mEnd + nInserted - nDeleted ≤ s.mStart then false
                          else s.mSelected }
  else s

/-- A freshly constructed selection: inactive, offsets zero. -/
def init : FlTextSelection := ⟨0, 0, false⟩

/-- Selection states reachable by any sequence of `set()`, `update()` and
`selected(bool)` calls, as the claim letters it. -/
inductive Reach : FlTextSelection → Prop
  | init : Reach init
  | set (s : FlTextSelection) (startpos endpos : Nat) :
      Reach s → Reach (set s startpos endpos)
  | update (s : FlTextSelection) (pos nDeleted nInserted : Nat) :
      Reach s → Reach (update s pos nDeleted nInserted)
  | selected_set (s : FlTextSelection) (b : Bool) :
      Reach s → Reach (selected_set s b)

/-- Selection states reachable when the raw flag setter is only used to
clear the selection (`selected(false)`). -/
inductive ReachSafe : FlTextSelection → Prop
  | init : ReachSafe init
  | set (s : FlTextSelection) (startpos endpos : Nat) :
      ReachSafe s → ReachSafe (set s startpos endpos)
  | update (s : FlTextSelection) (pos nDeleted nInserted : Nat) :
      ReachSafe s → ReachSafe (update s pos nDeleted nInserted)
  | selected_off (s : FlTextSelection) :
      ReachSafe s → ReachSafe (selected_set s false)

/-- The documented ordering invariant on the stored offsets. -/
def SelInv (s : FlTextSelection) : Prop := s.mSelected = true → s.mStart < s.mEnd

theorem selInv_set (s : FlTextSelection) (a b : Nat) : SelInv (set s a b) := by
  intro hsel
  simp only [set] at hsel ⊢
  simp only [decide_eq_true_eq] at hsel
  omega

theorem selInv_update (s : FlTextSelection) (pos nDel nIns : Nat) (h : SelInv s) :
    SelInv (update s pos nDel nIns) := by
  unfold SelInv at h ⊢
  unfold update
  split_ifs with h1 h2 h3 h4 h5 h6
  · exact h
  · push_neg at h1
    intro hsel
    dsimp only at hsel ⊢
    have := h hsel
    omega
  · intro hsel
    dsimp only at hsel
  · intro hsel
    dsimp only at hsel ⊢
    omega
  · intro hsel
    dsimp only at hsel
  · intro hsel
    dsimp only at hsel ⊢
    omega
  · exact h

theorem selInv_selected_off (s : FlTextSelection) (_h : SelInv s) :
    SelInv (selected_set s false) := by
  intro hsel
  simp [selected_set] at hsel

theorem selInv_reachSafe (s : FlTextSelection) (h : ReachSafe s) : SelInv s := by
  induction h with
  | init => intro hsel; simp [init] at hsel
  | set s a b _ _ => exact selInv_set s a b
  | update s p d i _ ih => exact selInv_update s p d i ih
  | selected_off s _ ih => exact selInv_selected_off s ih

end FlTextSelection

/-! ## Fl_Text_Buffer: the gap buffer

From `Fl_Text_Buffer.H`.  `length()` and `address()` are inline in the
header and translated verbatim; the edit primitives, the gap motion and
the undo machinery are only declared there and are modelled from the spec
("contiguous byte storage for text with a movable empty gap region",
"logical length = physical length − gap size", "append-only list of
reversible edit actions") and the header's documentation of `insert_`,
`remove_`, `move_gap` and `reallocate_with_gap`. -/

/-- One recorded edit action (`Fl_Text_Undo_Action`): the byte position of
the edit, the number of bytes the edit inserted (cut again on undo), and
the bytes the edit deleted (reinserted on undo). -/
structure UndoAction where
  undoat : Nat
  undoinsert : Nat
  undobuffer : List Nat
deriving Repr, DecidableEq

/-- The state of `Fl_Text_Buffer` restricted to the fields the claims talk
about: physical storage, gap bounds, logical length, the three selections,
and the undo machinery. -/
structure FlTextBuffer where
  mBuf : List Nat
  mGapStart : Nat
  mGapEnd : Nat
  mLength : Nat
  mPrimary : FlTextSelection
  mSecondary : FlTextSelection
  mHighlight : FlTextSelection
  mCanUndo : Bool
  mPreferredGapSize : Nat
  mUndoList : List UndoAction
  mRedoList : List UndoAction
deriving Repr, DecidableEq

namespace FlTextBuffer

/-- Inline in the header: `int length() const { return mLength; }`. -/
def length (b : FlTextBuffer) : Nat := b.mLength

/-- The logical byte sequence of the buffer (what `text()` copies out):
the physical store with the gap `[mGapStart, mGapEnd)` cut out. -/
def content (b : FlTextBuffer) : List Nat :=
  b.mBuf.take b.mGapStart ++ b.mBuf.drop b.mGapEnd

/-- Inline in the header:
`return (pos < mGapStart) ? mBuf+pos : mBuf+pos+mGapEnd-mGapStart;`
(as an index into `mBuf` rather than a pointer). -/
def address (b : FlTextBuffer) (pos : Nat) : Nat :=
  if pos < b.mGapStart then pos else pos + b.mGapEnd - b.mGapStart

/-- Modelled from the spec: `byte_at(pos)` (body not in the excerpt)
returns the raw byte stored at `address(pos)`. -/
def byte_at (b : FlTextBuffer) (pos : Nat) : Nat :=
  b.mBuf.getD (b.address pos) 0

/-- Modelled from the spec: common core of `move_gap` and
`reallocate_with_gap` — storage whose gap starts at `pos` and has size
`gapLen`, holding the same logical content. -/
def set_gap (b : FlTextBuffer) (pos gapLen : Nat) : FlTextBuffer :=
  { b with
    mBuf := b.content.take pos ++ List.replicate gapLen 0 ++ b.content.drop pos
    mGapStart := pos
    mGapEnd := pos + gapLen }

/-- Modelled from the spec: "Move the gap to start at a new position"
(header doc of `move_gap`); the gap size is unchanged. -/
def move_gap (b : FlTextBuffer) (pos : Nat) : FlTextBuffer :=
  set_gap b pos (b.mGapEnd - b.mGapStart)

/-- Modelled from the spec: "Reallocates the text storage in the buffer to
have a gap starting at newGapStart and a gap size of newGapLen, preserving
the buffer's current contents" (header doc). -/
def reallocate_with_gap (b : FlTextBuffer) (newGapStart newGapLen : Nat) : FlTextBuffer :=
  set_gap b newGapStart newGapLen

/-- Modelled from the spec: "Updates all of the selections in the buffer
for changes in the buffer's text" (header doc): all three named selections
receive the same `Fl_Text_Selection::update` call. -/
def update_selections (b : FlTextBuffer) (pos nDeleted nInserted : Nat) : FlTextBuffer :=
  { b with
    mPrimary := b.mPrimary.update pos nDeleted nInserted
    mSecondary := b.mSecondary.update pos nDeleted nInserted
    mHighlight := b.mHighlight.update pos nDeleted nInserted }

/-- Modelled from the spec: internal `insert_`: enlarge the gap when the
text does not fit (with `mPreferredGapSize` spare room), otherwise move it
to `pos`; copy the text into the gap; advance `mGapStart` and `mLength`;
update the selections. -/
def insert_ (b : FlTextBuffer) (pos : Nat) (text : List Nat) : FlTextBuffer :=
  let n := text.length
  let b1 := if b.mGapEnd - b.mGapStart < n then
              reallocate_with_gap b pos (n + b.mPreferredGapSize)
            else if pos ≠ b.mGapStart then move_gap b pos else b
  let b2 := { b1 with
    mBuf := b1.mBuf.take pos ++ text ++ b1.mBuf.drop (pos + n)
    mGapStart := b1.mGapStart + n
    mLength := b1.mLength + n }
  update_selections b2 pos 0 n

/-- Modelled from the spec: internal `remove_`: "Removes the contents of
the buffer between start and end (and moves the gap to the site of the
delete)" (header doc) — the gap is made contiguous with the deleted range
and then swallows it; `mLength` shrinks; the selections are updated. -/
def remove_ (b : FlTextBuffer) (start end_ : Nat) : FlTextBuffer :=
  let b1 := if b.mGapStart < start then move_gap b start
            else if end_ < b.mGapStart then move_gap b end_ else b
  let b2 := { b1 with
    mGapEnd := b1.mGapEnd + (end_ - b1.mGapStart)
    mGapStart := start
    mLength := b1.mLength - (end_ - start) }
  update_selections b2 start (end_ - start) 0

/-- The bytes of `text_range(start, end)`. -/
def text_range (b : FlTextBuffer) (start end_ : Nat) : List Nat :=
  (b.content.take end_).drop start

/-- Modelled from the spec: public `insert` ignores empty text, clamps the
position into `[0, length()]`, performs `insert_`, and — when undo is
enabled — appends the edit action to the undo log and clears the redo
log. -/
def insert (b : FlTextBuffer) (pos : Nat) (text : List Nat) : FlTextBuffer :=
  if text.isEmpty then b
  else
    let p := min pos b.mLength
    let b' := insert_ b p text
    if b.mCanUndo then
      { b' with mUndoList := b.mUndoList ++ [⟨p, text.length, []⟩], mRedoList := [] }
    else b'

/-- Modelled from the spec: public `remove` sorts and clamps the range into
`[0, length()]`, ignores empty ranges, performs `remove_`, and — when undo
is enabled — appends the edit action (carrying the deleted bytes) to the
undo log and clears the redo log. -/
def remove (b : FlTextBuffer) (start end_ : Nat) : FlTextBuffer :=
  let s := min (min start end_) b.mLength
  let e := min (max start end_) b.mLength
  if s = e then b
  else
    let deleted := b.text_range s e
    let b' := remove_ b s e
    if b.mCanUndo then
      { b' with mUndoList := b.mUndoList ++ [⟨s, 0, deleted⟩], mRedoList := [] }
    else b'

/-- Modelled from the spec: public `replace` sorts and clamps the range,
removes it, inserts the new text in its place, and records the combined
edit as one undo action. -/
def replace (b : FlTextBuffer) (start end_ : Nat) (text : List Nat) : FlTextBuffer :=
  let s := min (min start end_) b.mLength
  let e := min (max start end_) b.mLength
  let deleted := b.text_range s e
  let b2 := insert_ (remove_ b s e) s text
  if b.mCanUndo then
    { b2 with mUndoList := b.mUndoList ++ [⟨s, text.length, deleted⟩], mRedoList := [] }
  else b2

/-- Modelled from the spec: `text(const char*)` replaces the entire
contents of the buffer: fresh storage holding the new text with a gap of
the preferred size at its end, selections reset; when undo is enabled the
whole replacement is recorded as one action. -/
def text_set (b : FlTextBuffer) (t : List Nat) : FlTextBuffer :=
  let b' := { b with
    mBuf := t ++ List.replicate b.mPreferredGapSize 0
    mGapStart := t.length
    mGapEnd := t.length + b.mPreferredGapSize
    mLength := t.length
    mPrimary := FlTextSelection.init
    mSecondary := FlTextSelection.init
    mHighlight := FlTextSelection.init }
  if b.mCanUndo then
    { b' with mUndoList := b.mUndoList ++ [⟨0, t.length, b.content⟩], mRedoList := [] }
  else b'

/-- Modelled from the spec: "Check if undo is enabled and if the last
action can be undone" (header doc of `can_undo`). -/
def can_undo (b : FlTextBuffer) : Bool := b.mCanUndo && !b.mUndoList.isEmpty

/-- Modelled from the spec: `undo()` pops the most recent action off the
undo log and reverts it: the bytes the edit inserted are cut again and the
bytes it deleted are reinserted; the inverse action (carrying the bytes
just cut) is appended to the redo log. -/
def undo (b : FlTextBuffer) : FlTextBuffer :=
  if b.mCanUndo then
    match b.mUndoList.getLast? with
    | none => b
    | some a =>
      let s := min a.undoat b.mLength
      let e := min (a.undoat + a.undoinsert) b.mLength
      let cut := b.text_range s e
      let b1 := insert_ (remove_ b s e) s a.undobuffer
      { b1 with
        mUndoList := b.mUndoList.dropLast
        mRedoList := b.mRedoList ++ [⟨a.undoat, a.undobuffer.length, cut⟩] }
  else b

/-- Modelled from the spec: `redo()` pops the most recent undone action off
the redo log, reapplies it, and appends its inverse back onto the undo
log. -/
def redo (b : FlTextBuffer) : FlTextBuffer :=
  if b.mCanUndo then
    match b.mRedoList.getLast? with
    | none => b
    | some a =>
      let s := min a.undoat b.mLength
      let e := min (a.undoat + a.undoinsert) b.mLength
      let cut := b.text_range s e
      let b1 := insert_ (remove_ b s e) s a.undobuffer
      { b1 with
        mRedoList := b.mRedoList.dropLast
        mUndoList := b.mUndoList ++ [⟨a.undoat, a.undobuffer.length, cut⟩] }
  else b

/-- The constructor `Fl_Text_Buffer(requestedSize, preferredGapSize)`:
empty logical content, storage of `requestedSize + preferredGapSize`
bytes, all of it gap. -/
def mkBuffer (requestedSize : Nat := 0) (preferredGapSize : Nat := 1024) : FlTextBuffer :=
  { mBuf := List.replicate (requestedSize + preferredGapSize) 0
  , mGapStart := 0
  , mGapEnd := requestedSize + preferredGapSize
  , mLength := 0
  , mPrimary := FlTextSelection.init
  , mSecondary := FlTextSelection.init
  , mHighlight := FlTextSelection.init
  , mCanUndo := true
  , mPreferredGapSize := preferredGapSize
  , mUndoList := []
  , mRedoList := [] }

/-- The gap/length invariant of the spec:
`0 ≤ mGapStart ≤ mGapEnd ≤ physical length` and
`logical length = physical length − gap size`. -/
def Inv (b : FlTextBuffer) : Prop :=
  b.mGapStart ≤ b.mGapEnd ∧ b.mGapEnd ≤ b.mBuf.length
  ∧ b.mLength + (b.mGapEnd - b.mGapStart) = b.mBuf.length

instance (b : FlTextBuffer) : Decidable (Inv b) := by
  unfold Inv
  infer_instance

/-- Buffer states reachable through the public operations of the claim:
construction, `insert`, `remove`, `replace`, `text(const char*)`, `undo`,
`redo`. -/
inductive Reach : FlTextBuffer → Prop
  | init (requestedSize preferredGapSize : Nat) :
      Reach (mkBuffer requestedSize preferredGapSize)
  | insert (b : FlTextBuffer) (pos : Nat) (text : List Nat) :
      Reach b → Reach (insert b pos text)
  | remove (b : FlTextBuffer) (start end_ : Nat) :
      Reach b → Reach (remove b start end_)
  | replace (b : FlTextBuffer) (start end_ : Nat) (text : List Nat) :
      Reach b → Reach (replace b start end_ text)
  | text_set (b : FlTextBuffer) (t : List Nat) :
      Reach b → Reach (text_set b t)
  | undo (b : FlTextBuffer) : Reach b → Reach (undo b)
  | redo (b : FlTextBuffer) : Reach b → Reach (redo b)

theorem take_len_append {α : Type} (A B : List α) (n : Nat) (h : A.length = n) :
    (A ++ B).take n = A := by
  subst h
  exact List.take_left A B

theorem drop_len_append {α : Type} (A B : List α) (n : Nat) (h : A.length = n) :
    (A ++ B).drop n = B := by
  subst h
  exact List.drop_left A B

theorem take_mid_drop {α : Type} (c : List α) (s e : Nat) (hse : s ≤ e) :
    c.take s ++ (c.take e).drop s ++ c.drop e = c := by
  have h1 : (c.take e).take s = c.take s := by
    rw [List.take_take]
    congr 1
    omega
  conv_lhs => rw [← h1]
  rw [List.take_append_drop, List.take_append_drop]

theorem content_length (b : FlTextBuffer) (h : Inv b) : b.content.length = b.mLength := by
  obtain ⟨h1, h2, h3⟩ := h
  simp [content, List.length_take]
  omega

theorem content_take (b : FlTextBuffer) (s : Nat) (h : Inv b) (hs : s ≤ b.mGapStart) :
    b.content.take s = b.mBuf.take s := by
  obtain ⟨h1, h2, h3⟩ := h
  rw [content, List.take_append_of_le_length, List.take_take]
  · congr 1
    omega
  · rw [List.length_take]
    omega

theorem content_drop (b : FlTextBuffer) (i : Nat) (h : Inv b) :
    b.content.drop (b.mGapStart + i) = b.mBuf.drop (b.mGapEnd + i) := by
  obtain ⟨h1, h2, h3⟩ := h
  have hlen : (b.mBuf.take b.mGapStart).length = b.mGapStart := by
    rw [List.length_take]
    omega
  rw [content, show b.mGapStart + i = (b.mBuf.take b.mGapStart).length + i by rw [hlen],
    List.drop_append, List.drop_drop]

theorem set_gap_Inv (b : FlTextBuffer) (pos gapLen : Nat) (h : Inv b) (hp : pos ≤ b.mLength) :
    Inv (set_gap b pos gapLen) := by
  have hcl := content_length b h
  obtain ⟨h1, h2, h3⟩ := h
  refine ⟨?_, ?_, ?_⟩ <;>
    simp [set_gap, List.length_take, List.length_drop] <;>
      omega

theorem set_gap_content (b : FlTextBuffer) (pos gapLen : Nat) (h : Inv b)
    (hp : pos ≤ b.mLength) :
    (set_gap b pos gapLen).content = b.content := by
  have hcl := content_length b h
  have htl : (b.content.take pos).length = pos := by
    rw [List.length_take]
    omega
  show (b.content.take pos ++ List.replicate gapLen 0 ++ b.content.drop pos).take pos
      ++ (b.content.take pos ++ List.replicate gapLen 0 ++ b.content.drop pos).drop
          (pos + gapLen)
      = b.content
  rw [drop_len_append _ _ _ (by rw [List.length_append, htl, List.length_replicate]),
    List.take_append_of_le_length (by rw [List.length_append, htl, List.length_replicate]; omega),
    List.take_append_of_le_length (le_of_eq htl.symm),
    List.take_of_length_le (le_of_eq htl),
    List.take_append_drop]

theorem drop_append_ge {α : Type} (A B : List α) (m : Nat) (h : A.length ≤ m) :
    (A ++ B).drop m = B.drop (m - A.length) := by
  rw [show m = A.length + (m - A.length) by omega, List.drop_append]
  congr 1
  omega

theorem Inv_update_selections (b : FlTextBuffer) (p d i : Nat) :
    Inv (update_selections b p d i) ↔ Inv b := Iff.rfl

theorem content_update_selections (b : FlTextBuffer) (p d i : Nat) :
    (update_selections b p d i).content = b.content := rfl

theorem mLength_update_selections (b : FlTextBuffer) (p d i : Nat) :
    (update_selections b p d i).mLength = b.mLength := rfl

theorem insert_core (b1 : FlTextBuffer) (pos : Nat) (text : List Nat) (h : Inv b1)
    (hgs : b1.mGapStart = pos) (hgap : text.length ≤ b1.mGapEnd - b1.mGapStart) :
    Inv (update_selections { b1 with
        mBuf := b1.mBuf.take pos ++ text ++ b1.mBuf.drop (pos + text.length)
      , mGapStart := b1.mGapStart + text.length
      , mLength := b1.mLength + text.length } pos 0 text.length)
    ∧ (update_selections { b1 with
        mBuf := b1.mBuf.take pos ++ text ++ b1.mBuf.drop (pos + text.length)
      , mGapStart := b1.mGapStart + text.length
      , mLength := b1.mLength + text.length } pos 0 text.length).content
      = b1.content.take pos ++ text ++ b1.content.drop pos := by
  subst hgs
  have hInv := h
  obtain ⟨h1, h2, h3⟩ := h
  have hA : (b1.mBuf.take b1.mGapStart).length = b1.mGapStart := by
    rw [List.length_take]
    omega
  have hAT : (b1.mBuf.take b1.mGapStart ++ text).length
      = b1.mGapStart + text.length := by
    rw [List.length_append, hA]
  have hM : (b1.mBuf.take b1.mGapStart ++ text
      ++ b1.mBuf.drop (b1.mGapStart + text.length)).length = b1.mBuf.length := by
    simp only [List.length_append, List.length_take, List.length_drop]
    omega
  constructor
  · show b1.mGapStart + text.length ≤ b1.mGapEnd
      ∧ b1.mGapEnd ≤ (b1.mBuf.take b1.mGapStart ++ text
          ++ b1.mBuf.drop (b1.mGapStart + text.length)).length
      ∧ b1.mLength + text.length + (b1.mGapEnd - (b1.mGapStart + text.length))
        = (b1.mBuf.take b1.mGapStart ++ text
          ++ b1.mBuf.drop (b1.mGapStart + text.length)).length
    rw [hM]
    refine ⟨by omega, by omega, by omega⟩
  · show (b1.mBuf.take b1.mGapStart ++ text
        ++ b1.mBuf.drop (b1.mGapStart + text.length)).take (b1.mGapStart + text.length)
      ++ (b1.mBuf.take b1.mGapStart ++ text
        ++ b1.mBuf.drop (b1.mGapStart + text.length)).drop b1.mGapEnd
      = b1.content.take b1.mGapStart ++ text ++ b1.content.drop b1.mGapStart
    have hd : b1.content.drop b1.mGapStart = b1.mBuf.drop b1.mGapEnd := by
      have h0 := content_drop b1 0 hInv
      simpa using h0
    rw [take_len_append _ _ _ hAT, drop_append_ge _ _ _ (by rw [hAT]; omega),
      List.drop_drop, hAT, content_take b1 b1.mGapStart hInv le_rfl, hd,
      show b1.mGapStart + text.length + (b1.mGapEnd - (b1.mGapStart + text.length))
        = b1.mGapEnd by omega]

theorem remove_core (b1 : FlTextBuffer) (s e : Nat) (h : Inv b1)
    (hs : s ≤ b1.mGapStart) (hge : b1.mGapStart ≤ e) (hel : e ≤ b1.mLength) :
    Inv (update_selections { b1 with
        mGapEnd := b1.mGapEnd + (e - b1.mGapStart)
      , mGapStart := s
      , mLength := b1.mLength - (e - s) } s (e - s) 0)
    ∧ (update_selections { b1 with
        mGapEnd := b1.mGapEnd + (e - b1.mGapStart)
      , mGapStart := s
      , mLength := b1.mLength - (e - s) } s (e - s) 0).content
      = b1.content.take s ++ b1.content.drop e := by
  have hInv := h
  obtain ⟨h1, h2, h3⟩ := h
  constructor
  · show s ≤ b1.mGapEnd + (e - b1.mGapStart)
      ∧ b1.mGapEnd + (e - b1.mGapStart) ≤ b1.mBuf.length
      ∧ b1.mLength - (e - s) + (b1.mGapEnd + (e - b1.mGapStart) - s) = b1.mBuf.length
    refine ⟨by omega, by omega, by omega⟩
  · show b1.mBuf.take s ++ b1.mBuf.drop (b1.mGapEnd + (e - b1.mGapStart))
      = b1.content.take s ++ b1.content.drop e
    have hd : b1.content.drop e = b1.mBuf.drop (b1.mGapEnd + (e - b1.mGapStart)) := by
      have h0 := content_drop b1 (e - b1.mGapStart) hInv
      rw [show b1.mGapStart + (e - b1.mGapStart) = e by omega] at h0
      exact h0
    rw [content_take b1 s hInv hs, hd]

theorem insert_aux (b : FlTextBuffer) (pos : Nat) (text : List Nat) (h : Inv b)
    (hp : pos ≤ b.mLength) :
    Inv (insert_ b pos text)
    ∧ (insert_ b pos text).content = b.content.take pos ++ text ++ b.content.drop pos
    ∧ (insert_ b pos text).mLength = b.mLength + text.length := by
  by_cases hc1 : b.mGapEnd - b.mGapStart < text.length
  · have hb1 : Inv (reallocate_with_gap b pos (text.length + b.mPreferredGapSize)) :=
      set_gap_Inv b pos _ h hp
    have hcnt : (reallocate_with_gap b pos
        (text.length + b.mPreferredGapSize)).content = b.content :=
      set_gap_content b pos _ h hp
    have hcore := insert_core (reallocate_with_gap b pos
        (text.length + b.mPreferredGapSize))
      pos text hb1 rfl (by show text.length ≤ pos + (text.length + b.mPreferredGapSize) - pos; omega)
    simp only [insert_]
    rw [if_pos hc1]
    exact ⟨hcore.1, by rw [hcore.2, hcnt], rfl⟩
  · by_cases hc2 : pos ≠ b.mGapStart
    · have hb1 : Inv (move_gap b pos) :=
        set_gap_Inv b pos _ h hp
      have hcnt : (move_gap b pos).content = b.content :=
        set_gap_content b pos _ h hp
      have hcore := insert_core (move_gap b pos)
        pos text hb1 rfl
        (by show text.length ≤ pos + (b.mGapEnd - b.mGapStart) - pos; omega)
      simp only [insert_]
      rw [if_neg hc1, if_pos hc2]
      exact ⟨hcore.1, by rw [hcore.2, hcnt], rfl⟩
    · push_neg at hc2
      have hcore := insert_core b pos text h hc2.symm (by omega)
      simp only [insert_]
      rw [if_neg hc1, if_neg (by simpa using hc2)]
      exact ⟨hcore.1, hcore.2, rfl⟩

theorem remove_aux (b : FlTextBuffer) (s e : Nat) (h : Inv b) (hse : s ≤ e)
    (hel : e ≤ b.mLength) :
    Inv (remove_ b s e)
    ∧ (remove_ b s e).content = b.content.take s ++ b.content.drop e
    ∧ (remove_ b s e).mLength = b.mLength - (e - s) := by
  by_cases hc1 : b.mGapStart < s
  · have hb1 : Inv (move_gap b s) :=
      set_gap_Inv b s _ h (by omega)
    have hcnt : (move_gap b s).content = b.content :=
      set_gap_content b s _ h (by omega)
    have hcore := remove_core (move_gap b s) s e hb1
      le_rfl (by show (s : Nat) ≤ e; omega) (by show e ≤ b.mLength; omega)
    simp only [remove_]
    rw [if_pos hc1]
    exact ⟨hcore.1, by rw [hcore.2, hcnt], rfl⟩
  · by_cases hc2 : e < b.mGapStart
    · have hb1 : Inv (move_gap b e) :=
        set_gap_Inv b e _ h hel
      have hcnt : (move_gap b e).content = b.content :=
        set_gap_content b e _ h hel
      have hcore := remove_core (move_gap b e) s e hb1
        (by show s ≤ e; omega) le_rfl (by show e ≤ b.mLength; omega)
      simp only [remove_]
      rw [if_neg hc1, if_pos hc2]
      exact ⟨hcore.1, by rw [hcore.2, hcnt], rfl⟩
    · have hcore := remove_core b s e h (by omega) (by omega) hel
      simp only [remove_]
      rw [if_neg hc1, if_neg hc2]
      exact ⟨hcore.1, hcore.2, rfl⟩

theorem insert_fields (b : FlTextBuffer) (pos : Nat) (text : List Nat) :
    (insert_ b pos text).mPrimary = b.mPrimary.update pos 0 text.length
    ∧ (insert_ b pos text).mSecondary = b.mSecondary.update pos 0 text.length
    ∧ (insert_ b pos text).mHighlight = b.mHighlight.update pos 0 text.length
    ∧ (insert_ b pos text).mCanUndo = b.mCanUndo
    ∧ (insert_ b pos text).mUndoList = b.mUndoList
    ∧ (insert_ b pos text).mRedoList = b.mRedoList
    ∧ (insert_ b pos text).mPreferredGapSize = b.mPreferredGapSize := by
  simp only [insert_]
  split_ifs <;>
    exact ⟨rfl, rfl, rfl, rfl, rfl, rfl, rfl⟩

theorem remove_fields (b : FlTextBuffer) (s e : Nat) :
    (remove_ b s e).mPrimary = b.mPrimary.update s (e - s) 0
    ∧ (remove_ b s e).mSecondary = b.mSecondary.update s (e - s) 0
    ∧ (remove_ b s e).mHighlight = b.mHighlight.update s (e - s) 0
    ∧ (remove_ b s e).mCanUndo = b.mCanUndo
    ∧ (remove_ b s e).mUndoList = b.mUndoList
    ∧ (remove_ b s e).mRedoList = b.mRedoList
    ∧ (remove_ b s e).mPreferredGapSize = b.mPreferredGapSize := by
  simp only [remove_]
  split_ifs <;>
    exact ⟨rfl, rfl, rfl, rfl, rfl, rfl, rfl⟩

theorem Inv_mkBuffer (r p : Nat) : Inv (mkBuffer r p) := by
  refine ⟨?_, ?_, ?_⟩ <;> simp [mkBuffer]

theorem Inv_insert (b : FlTextBuffer) (pos : Nat) (text : List Nat) (h : Inv b) :
    Inv (insert b pos text) := by
  simp only [insert]
  split_ifs
  · exact h
  · exact (insert_aux b (min pos b.mLength) text h (min_le_right _ _)).1
  · exact (insert_aux b (min pos b.mLength) text h (min_le_right _ _)).1

theorem Inv_remove (b : FlTextBuffer) (s e : Nat) (h : Inv b) :
    Inv (remove b s e) := by
  simp only [remove]
  split_ifs
  · exact h
  · exact (remove_aux b (min (min s e) b.mLength) (min (max s e) b.mLength) h
      (by omega) (by omega)).1
  · exact (remove_aux b (min (min s e) b.mLength) (min (max s e) b.mLength) h
      (by omega) (by omega)).1

theorem Inv_replace (b : FlTextBuffer) (s e : Nat) (text : List Nat) (h : Inv b) :
    Inv (replace b s e text) := by
  simp only [replace]
  have h1 := remove_aux b (min (min s e) b.mLength) (min (max s e) b.mLength) h
    (by omega) (by omega)
  have h2 := insert_aux (remove_ b (min (min s e) b.mLength) (min (max s e) b.mLength))
    (min (min s e) b.mLength) text h1.1 (by rw [h1.2.2]; omega)
  split_ifs
  · exact h2.1
  · exact h2.1

theorem Inv_text_set (b : FlTextBuffer) (t : List Nat) : Inv (text_set b t) := by
  simp only [text_set]
  split_ifs <;>
    refine ⟨?_, ?_, ?_⟩ <;>
      simp

theorem Inv_undo (b : FlTextBuffer) (h : Inv b) : Inv (undo b) := by
  simp only [undo]
  split
  · split
    · exact h
    · rename_i a heq
      have hr := remove_aux b (min a.undoat b.mLength)
        (min (a.undoat + a.undoinsert) b.mLength) h (by omega) (by omega)
      have hi := insert_aux (remove_ b (min a.undoat b.mLength)
          (min (a.undoat + a.undoinsert) b.mLength)) (min a.undoat b.mLength)
        a.undobuffer hr.1 (by rw [hr.2.2]; omega)
      exact hi.1
  · exact h

theorem Inv_redo (b : FlTextBuffer) (h : Inv b) : Inv (redo b) := by
  simp only [redo]
  split
  · split
    · exact h
    · rename_i a heq
      have hr := remove_aux b (min a.undoat b.mLength)
        (min (a.undoat + a.undoinsert) b.mLength) h (by omega) (by omega)
      have hi := insert_aux (remove_ b (min a.undoat b.mLength)
          (min (a.undoat + a.undoinsert) b.mLength)) (min a.undoat b.mLength)
        a.undobuffer hr.1 (by rw [hr.2.2]; omega)
      exact hi.1
  · exact h

theorem Inv_reach (b : FlTextBuffer) (h : Reach b) : Inv b := by
  induction h with
  | init r p => exact Inv_mkBuffer r p
  | insert b pos text _ ih => exact Inv_insert b pos text ih
  | remove b s e _ ih => exact Inv_remove b s e ih
  | replace b s e t _ ih => exact Inv_replace b s e t ih
  | text_set b t _ _ => exact Inv_text_set b t
  | undo b _ ih => exact Inv_undo b ih
  | redo b _ ih => exact Inv_redo b ih

/-- C1: for every buffer state reachable by the public operations
(construction, insert, remove, replace, text(const char*), undo, redo) the
gap bounds satisfy `0 ≤ mGapStart ≤ mGapEnd ≤ physical length`, and
`length()` equals the physical length minus the gap size. -/
theorem gap_invariant (b : FlTextBuffer) (h : Reach b) :
    0 ≤ b.mGapStart ∧ b.mGapStart ≤ b.mGapEnd ∧ b.mGapEnd ≤ b.mBuf.length
    ∧ b.length = b.mBuf.length - (b.mGapEnd - b.mGapStart) := by
  obtain ⟨h1, h2, h3⟩ := Inv_reach b h
  exact ⟨Nat.zero_le _, h1, h2, by unfold length; omega⟩

/-- Witness for C1: the buffer obtained by constructing with a preferred gap
of 4 bytes and inserting two bytes at position 0 is reachable and satisfies
the invariant. -/
theorem gap_invariant_witness :
    Reach (insert (mkBuffer 0 4) 0 [104, 105])
    ∧ (0 ≤ (insert (mkBuffer 0 4) 0 [104, 105]).mGapStart
      ∧ (insert (mkBuffer 0 4) 0 [104, 105]).mGapStart
        ≤ (insert (mkBuffer 0 4) 0 [104, 105]).mGapEnd
      ∧ (insert (mkBuffer 0 4) 0 [104, 105]).mGapEnd
        ≤ (insert (mkBuffer 0 4) 0 [104, 105]).mBuf.length
      ∧ (insert (mkBuffer 0 4) 0 [104, 105]).length
        = (insert (mkBuffer 0 4) 0 [104, 105]).mBuf.length
          - ((insert (mkBuffer 0 4) 0 [104, 105]).mGapEnd
            - (insert (mkBuffer 0 4) 0 [104, 105]).mGapStart)) :=
  ⟨Reach.insert _ 0 _ (Reach.init 0 4),
    gap_invariant _ (Reach.insert _ 0 _ (Reach.init 0 4))⟩

theorem isEmpty_concat {α : Type} (l : List α) (a : α) : (l ++ [a]).isEmpty = false := by
  cases l <;> rfl

theorem content_with_logs (y : FlTextBuffer) (u r : List UndoAction) :
    ({ y with mUndoList := u, mRedoList := r } : FlTextBuffer).content = y.content := rfl

theorem mLength_with_logs (y : FlTextBuffer) (u r : List UndoAction) :
    ({ y with mUndoList := u, mRedoList := r } : FlTextBuffer).mLength = y.mLength := rfl

theorem undo_eq (B : FlTextBuffer) (at_ ins : Nat) (buf : List Nat)
    (l : List UndoAction) (hcu : B.mCanUndo = true)
    (hl : B.mUndoList = l ++ [⟨at_, ins, buf⟩]) :
    undo B = { insert_ (remove_ B (min at_ B.mLength) (min (at_ + ins) B.mLength))
        (min at_ B.mLength) buf with
      mUndoList := l
    , mRedoList := B.mRedoList ++ [⟨at_, buf.length,
        B.text_range (min at_ B.mLength) (min (at_ + ins) B.mLength)⟩] } := by
  simp only [undo, hcu, hl, List.getLast?_concat, List.dropLast_concat, if_true]

theorem undo_insert_restores (b : FlTextBuffer) (h : Inv b) (hcu : b.mCanUndo = true)
    (pos : Nat) (text : List Nat) (htext : text ≠ []) :
    can_undo (insert b pos text) = true
    ∧ (undo (insert b pos text)).content = b.content
    ∧ (undo (insert b pos text)).mLength = b.mLength := by
  have hcl := content_length b h
  have hp : min pos b.mLength ≤ b.mLength := min_le_right _ _
  have hIns := insert_aux b (min pos b.mLength) text h hp
  have hflds := insert_fields b (min pos b.mLength) text
  have hb' : insert b pos text = { insert_ b (min pos b.mLength) text with
      mUndoList := b.mUndoList ++ [⟨min pos b.mLength, text.length, []⟩]
    , mRedoList := [] } := by
    simp only [insert]
    rw [if_neg (by simp [List.isEmpty_iff, htext]), if_pos hcu]
  have hInv' : Inv (insert b pos text) := by
    rw [hb']
    exact hIns.1
  have hcu' : (insert b pos text).mCanUndo = true := by
    rw [hb']
    show (insert_ b (min pos b.mLength) text).mCanUndo = true
    rw [hflds.2.2.2.1]
    exact hcu
  have hUL : (insert b pos text).mUndoList
      = b.mUndoList ++ [⟨min pos b.mLength, text.length, []⟩] := by
    rw [hb']
  have hLen : (insert b pos text).mLength = b.mLength + text.length := by
    rw [hb']
    show (insert_ b (min pos b.mLength) text).mLength = b.mLength + text.length
    exact hIns.2.2
  have hCnt : (insert b pos text).content
      = b.content.take (min pos b.mLength) ++ text
        ++ b.content.drop (min pos b.mLength) := by
    rw [hb']
    show (insert_ b (min pos b.mLength) text).content = _
    exact hIns.2.1
  have hlenA : (b.content.take (min pos b.mLength)).length = min pos b.mLength := by
    rw [List.length_take]
    omega
  have hlenAT : (b.content.take (min pos b.mLength) ++ text).length
      = min pos b.mLength + text.length := by
    rw [List.length_append, hlenA]
  have hRem := remove_aux (insert b pos text) (min pos b.mLength)
    (min pos b.mLength + text.length) hInv' (by omega) (by rw [hLen]; omega)
  have hRc : (remove_ (insert b pos text) (min pos b.mLength)
      (min pos b.mLength + text.length)).content = b.content := by
    rw [hRem.2.1, hCnt,
      List.take_append_of_le_length (by rw [hlenAT]; omega),
      List.take_append_of_le_length (by rw [hlenA]),
      List.take_of_length_le (le_of_eq hlenA),
      drop_len_append _ _ _ hlenAT,
      List.take_append_drop]
  have hIns2 := insert_aux (remove_ (insert b pos text) (min pos b.mLength)
      (min pos b.mLength + text.length)) (min pos b.mLength) [] hRem.1
    (by rw [hRem.2.2, hLen]; omega)
  have hEq := undo_eq (insert b pos text) (min pos b.mLength) text.length []
    b.mUndoList hcu' hUL
  refine ⟨?_, ?_⟩
  · simp [can_undo, hcu', hUL, isEmpty_concat]
  · rw [hEq, content_with_logs, mLength_with_logs, hLen,
      show min (min pos b.mLength) (b.mLength + text.length) = min pos b.mLength
        by omega,
      show min (min pos b.mLength + text.length) (b.mLength + text.length)
        = min pos b.mLength + text.length by omega]
    constructor
    · rw [hIns2.2.1, hRc, List.append_nil, List.take_append_drop]
    · rw [hIns2.2.2, hRem.2.2, hLen]
      simp

theorem undo_remove_restores (b : FlTextBuffer) (h : Inv b) (hcu : b.mCanUndo = true)
    (start end_ : Nat) (hse : start < end_) (hee : end_ ≤ b.mLength) :
    can_undo (remove b start end_) = true
    ∧ (undo (remove b start end_)).content = b.content
    ∧ (undo (remove b start end_)).mLength = b.mLength := by
  have hcl := content_length b h
  have hm1 : min (min start end_) b.mLength = start := by omega
  have hm2 : min (max start end_) b.mLength = end_ := by omega
  have hRem := remove_aux b start end_ h (le_of_lt hse) hee
  have hRflds := remove_fields b start end_
  have hb' : remove b start end_ = { remove_ b start end_ with
      mUndoList := b.mUndoList ++ [⟨start, 0, b.text_range start end_⟩]
    , mRedoList := [] } := by
    simp only [remove]
    rw [hm1, hm2, if_neg (by omega), if_pos hcu]
  have hInv' : Inv (remove b start end_) := by
    rw [hb']
    exact hRem.1
  have hcu' : (remove b start end_).mCanUndo = true := by
    rw [hb']
    show (remove_ b start end_).mCanUndo = true
    rw [hRflds.2.2.2.1]
    exact hcu
  have hUL : (remove b start end_).mUndoList
      = b.mUndoList ++ [⟨start, 0, b.text_range start end_⟩] := by
    rw [hb']
  have hLen : (remove b start end_).mLength = b.mLength - (end_ - start) := by
    rw [hb']
    show (remove_ b start end_).mLength = _
    exact hRem.2.2
  have hCnt : (remove b start end_).content
      = b.content.take start ++ b.content.drop end_ := by
    rw [hb']
    show (remove_ b start end_).content = _
    exact hRem.2.1
  have hlenA : (b.content.take start).length = start := by
    rw [List.length_take]
    omega
  have hRem2 := remove_aux (remove b start end_) start start hInv' le_rfl
    (by rw [hLen]; omega)
  have hRc : (remove_ (remove b start end_) start start).content
      = (remove b start end_).content := by
    rw [hRem2.2.1, List.take_append_drop]
  have hIns2 := insert_aux (remove_ (remove b start end_) start start) start
    (b.text_range start end_) hRem2.1 (by rw [hRem2.2.2, hLen]; omega)
  have hEq := undo_eq (remove b start end_) start 0 (b.text_range start end_)
    b.mUndoList hcu' hUL
  refine ⟨?_, ?_⟩
  · simp [can_undo, hcu', hUL, isEmpty_concat]
  · rw [hEq, content_with_logs, mLength_with_logs, hLen, Nat.add_zero,
      show min start (b.mLength - (end_ - start)) = start by omega]
    constructor
    · rw [hIns2.2.1, hRc, hCnt, take_len_append _ _ _ hlenA,
        drop_len_append _ _ _ hlenA, text_range]
      exact take_mid_drop b.content start end_ (le_of_lt hse)
    · rw [hIns2.2.2, hRem2.2.2, hLen]
      simp only [text_range, List.length_drop, List.length_take]
      omega

theorem undo_replace_restores (b : FlTextBuffer) (h : Inv b) (hcu : b.mCanUndo = true)
    (start end_ : Nat) (text : List Nat) (hse : start < end_) (hee : end_ ≤ b.mLength) :
    can_undo (replace b start end_ text) = true
    ∧ (undo (replace b start end_ text)).content = b.content
    ∧ (undo (replace b start end_ text)).mLength = b.mLength := by
  have hcl := content_length b h
  have hm1 : min (min start end_) b.mLength = start := by omega
  have hm2 : min (max start end_) b.mLength = end_ := by omega
  have hRem := remove_aux b start end_ h (le_of_lt hse) hee
  have hIns := insert_aux (remove_ b start end_) start text hRem.1
    (by rw [hRem.2.2]; omega)
  have hlenA : (b.content.take start).length = start := by
    rw [List.length_take]
    omega
  have hb' : replace b start end_ text
      = { insert_ (remove_ b start end_) start text with
      mUndoList := b.mUndoList ++ [⟨start, text.length, b.text_range start end_⟩]
    , mRedoList := [] } := by
    simp only [replace]
    rw [hm1, hm2, if_pos hcu]
  have hInv' : Inv (replace b start end_ text) := by
    rw [hb']
    exact hIns.1
  have hcu' : (replace b start end_ text).mCanUndo = true := by
    rw [hb']
    show (insert_ (remove_ b start end_) start text).mCanUndo = true
    rw [(insert_fields _ _ _).2.2.2.1, (remove_fields _ _ _).2.2.2.1]
    exact hcu
  have hUL : (replace b start end_ text).mUndoList
      = b.mUndoList ++ [⟨start, text.length, b.text_range start end_⟩] := by
    rw [hb']
  have hLen : (replace b start end_ text).mLength
      = b.mLength - (end_ - start) + text.length := by
    rw [hb']
    show (insert_ (remove_ b start end_) start text).mLength = _
    rw [hIns.2.2, hRem.2.2]
  have hCnt : (replace b start end_ text).content
      = b.content.take start ++ text ++ b.content.drop end_ := by
    rw [hb']
    show (insert_ (remove_ b start end_) start text).content = _
    rw [hIns.2.1, hRem.2.1, take_len_append _ _ _ hlenA,
      drop_len_append _ _ _ hlenA]
  have hlenAT : (b.content.take start ++ text).length = start + text.length := by
    rw [List.length_append, hlenA]
  have hRem2 := remove_aux (replace b start end_ text) start (start + text.length)
    hInv' (by omega) (by rw [hLen]; omega)
  have hRc : (remove_ (replace b start end_ text) start
      (start + text.length)).content
      = b.content.take start ++ b.content.drop end_ := by
    rw [hRem2.2.1, hCnt,
      List.take_append_of_le_length (by rw [hlenAT]; omega),
      List.take_append_of_le_length (by rw [hlenA]),
      List.take_of_length_le (le_of_eq hlenA),
      drop_len_append _ _ _ hlenAT]
  have hIns2 := insert_aux (remove_ (replace b start end_ text) start
      (start + text.length)) start (b.text_range start end_) hRem2.1
    (by rw [hRem2.2.2, hLen]; omega)
  have hEq := undo_eq (replace b start end_ text) start text.length
    (b.text_range start end_) b.mUndoList hcu' hUL
  refine ⟨?_, ?_⟩
  · simp [can_undo, hcu', hUL, isEmpty_concat]
  · rw [hEq, content_with_logs, mLength_with_logs, hLen,
      show min start (b.mLength - (end_ - start) + text.length) = start by omega,
      show min (start + text.length) (b.mLength - (end_ - start) + text.length)
        = start + text.length by omega]
    constructor
    · rw [hIns2.2.1, hRc, take_len_append _ _ _ hlenA,
        drop_len_append _ _ _ hlenA, text_range]
      exact take_mid_drop b.content start end_ (le_of_lt hse)
    · rw [hIns2.2.2, hRem2.2.2, hLen]
      simp only [text_range, List.length_drop, List.length_take]
      omega

theorem byte_at_content (b : FlTextBuffer) (i : Nat) (h : Inv b) (_hi : i < b.mLength) :
    byte_at b i = b.content.getD i 0 := by
  obtain ⟨h1, h2, h3⟩ := h
  have hTk : (b.mBuf.take b.mGapStart).length = b.mGapStart := by
    rw [List.length_take]
    omega
  unfold byte_at address content
  by_cases hlt : i < b.mGapStart
  · rw [if_pos hlt, List.getD_eq_getElem?_getD, List.getD_eq_getElem?_getD,
      List.getElem?_append, if_pos (by rw [hTk]; exact hlt), List.getElem?_take,
      if_pos hlt]
  · rw [if_neg hlt, show i + b.mGapEnd - b.mGapStart = b.mGapEnd + (i - b.mGapStart)
        by omega,
      List.getD_eq_getElem?_getD, List.getD_eq_getElem?_getD,
      List.getElem?_append, if_neg (by rw [hTk]; omega), hTk, List.getElem?_drop]

/-- A sample reachable buffer used by the witnesses: two bytes inserted into
a freshly constructed buffer with a preferred gap of 4 bytes. -/
def sampleBuf : FlTextBuffer := insert (mkBuffer 0 4) 0 [10, 20]

/-- C2: every single edit recorded in the undo log is reversible: after an
effective `insert`, `remove` or `replace` on a buffer with undo enabled,
`can_undo()` holds and `undo()` restores the logical byte sequence and
`length()` to their values before the edit. -/
theorem undo_reverses_edit (b : FlTextBuffer) (h : Inv b) (hcu : b.mCanUndo = true)
    (pos start end_ : Nat) (text : List Nat) (htext : text ≠ [])
    (hse : start < end_) (hee : end_ ≤ b.length) :
    (can_undo (insert b pos text) = true
      ∧ (undo (insert b pos text)).content = b.content
      ∧ (undo (insert b pos text)).length = b.length)
    ∧ (can_undo (remove b start end_) = true
      ∧ (undo (remove b start end_)).content = b.content
      ∧ (undo (remove b start end_)).length = b.length)
    ∧ (can_undo (replace b start end_ text) = true
      ∧ (undo (replace b start end_ text)).content = b.content
      ∧ (undo (replace b start end_ text)).length = b.length) :=
  ⟨undo_insert_restores b h hcu pos text htext,
    undo_remove_restores b h hcu start end_ hse hee,
    undo_replace_restores b h hcu start end_ text hse hee⟩

/-- Witness for C2: on the sample buffer (content two bytes), inserting one
byte at 1, removing `[0,1)`, or replacing `[0,1)` by one byte is undone
exactly. -/
theorem undo_reverses_edit_witness :
    (Inv sampleBuf ∧ sampleBuf.mCanUndo = true ∧ ([7] : List Nat) ≠ []
      ∧ 0 < 1 ∧ 1 ≤ sampleBuf.length)
    ∧ ((can_undo (insert sampleBuf 1 [7]) = true
        ∧ (undo (insert sampleBuf 1 [7])).content = sampleBuf.content
        ∧ (undo (insert sampleBuf 1 [7])).length = sampleBuf.length)
      ∧ (can_undo (remove sampleBuf 0 1) = true
        ∧ (undo (remove sampleBuf 0 1)).content = sampleBuf.content
        ∧ (undo (remove sampleBuf 0 1)).length = sampleBuf.length)
      ∧ (can_undo (replace sampleBuf 0 1 [7]) = true
        ∧ (undo (replace sampleBuf 0 1 [7])).content = sampleBuf.content
        ∧ (undo (replace sampleBuf 0 1 [7])).length = sampleBuf.length)) :=
  ⟨⟨by decide, by decide, by decide, by decide, by decide⟩,
    undo_reverses_edit sampleBuf (by decide) (by decide) 1 0 1 [7]
      (by decide) (by decide) (by decide)⟩

/-- C4: moving the gap (or reallocating the storage with a new gap) leaves
`length()` unchanged and every `byte_at(i)` for `i < length()` unchanged;
equivalently `address(pos)` skips the gap, so `byte_at` reads the logical
content independently of the gap's position. -/
theorem move_gap_frame (b : FlTextBuffer) (p : Nat) (h : Inv b) (hp : p ≤ b.mLength) :
    ((move_gap b p).length = b.length
      ∧ (move_gap b p).content = b.content
      ∧ ∀ i, i < b.mLength → byte_at (move_gap b p) i = byte_at b i)
    ∧ (∀ gapLen, (reallocate_with_gap b p gapLen).length = b.length
      ∧ (reallocate_with_gap b p gapLen).content = b.content
      ∧ ∀ i, i < b.mLength → byte_at (reallocate_with_gap b p gapLen) i = byte_at b i)
    ∧ (∀ i, i < b.mLength → byte_at b i = b.content.getD i 0) := by
  have key : ∀ gapLen, (set_gap b p gapLen).length = b.length
      ∧ (set_gap b p gapLen).content = b.content
      ∧ ∀ i, i < b.mLength → byte_at (set_gap b p gapLen) i = byte_at b i := by
    intro gapLen
    have hInv2 := set_gap_Inv b p gapLen h hp
    have hc2 := set_gap_content b p gapLen h hp
    refine ⟨rfl, hc2, ?_⟩
    intro i hi
    rw [byte_at_content (set_gap b p gapLen) i hInv2 (show i < b.mLength from hi),
      hc2, byte_at_content b i h hi]
  exact ⟨key (b.mGapEnd - b.mGapStart), key, fun i hi => byte_at_content b i h hi⟩

/-- Witness for C4: moving the sample buffer's gap to position 1. -/
theorem move_gap_frame_witness :
    (Inv sampleBuf ∧ 1 ≤ sampleBuf.mLength)
    ∧ (((move_gap sampleBuf 1).length = sampleBuf.length
      ∧ (move_gap sampleBuf 1).content = sampleBuf.content
      ∧ ∀ i, i < sampleBuf.mLength →
          byte_at (move_gap sampleBuf 1) i = byte_at sampleBuf i)
    ∧ (∀ gapLen, (reallocate_with_gap sampleBuf 1 gapLen).length = sampleBuf.length
      ∧ (reallocate_with_gap sampleBuf 1 gapLen).content = sampleBuf.content
      ∧ ∀ i, i < sampleBuf.mLength →
          byte_at (reallocate_with_gap sampleBuf 1 gapLen) i = byte_at sampleBuf i)
    ∧ (∀ i, i < sampleBuf.mLength →
        byte_at sampleBuf i = sampleBuf.content.getD i 0)) :=
  ⟨⟨by decide, by decide⟩, move_gap_frame sampleBuf 1 (by decide) (by decide)⟩

theorem replace_sel_core (b : FlTextBuffer) (s e : Nat) (text : List Nat) :
    (insert_ (remove_ b s e) s text).mPrimary
      = (b.mPrimary.update s (e - s) 0).update s 0 text.length
    ∧ (insert_ (remove_ b s e) s text).mSecondary
      = (b.mSecondary.update s (e - s) 0).update s 0 text.length
    ∧ (insert_ (remove_ b s e) s text).mHighlight
      = (b.mHighlight.update s (e - s) 0).update s 0 text.length := by
  refine ⟨?_, ?_, ?_⟩
  · rw [(insert_fields _ _ _).1, (remove_fields _ _ _).1]
  · rw [(insert_fields _ _ _).2.1, (remove_fields _ _ _).2.1]
  · rw [(insert_fields _ _ _).2.2.1, (remove_fields _ _ _).2.2.1]

/-- C5: every effective edit (insert, remove, replace) applies the same
`Fl_Text_Selection::update(pos, nDeleted, nInserted)` adjustment to each of
the three named selections `mPrimary`, `mSecondary` and `mHighlight`. -/
theorem selections_updated (b : FlTextBuffer) (pos start end_ : Nat)
    (text : List Nat) (htext : text ≠ [])
    (hne : min (min start end_) b.mLength ≠ min (max start end_) b.mLength) :
    ((insert b pos text).mPrimary
        = b.mPrimary.update (min pos b.mLength) 0 text.length
      ∧ (insert b pos text).mSecondary
        = b.mSecondary.update (min pos b.mLength) 0 text.length
      ∧ (insert b pos text).mHighlight
        = b.mHighlight.update (min pos b.mLength) 0 text.length)
    ∧ ((remove b start end_).mPrimary
        = b.mPrimary.update (min (min start end_) b.mLength)
          (min (max start end_) b.mLength - min (min start end_) b.mLength) 0
      ∧ (remove b start end_).mSecondary
        = b.mSecondary.update (min (min start end_) b.mLength)
          (min (max start end_) b.mLength - min (min start end_) b.mLength) 0
      ∧ (remove b start end_).mHighlight
        = b.mHighlight.update (min (min start end_) b.mLength)
          (min (max start end_) b.mLength - min (min start end_) b.mLength) 0)
    ∧ ((replace b start end_ text).mPrimary
        = (b.mPrimary.update (min (min start end_) b.mLength)
          (min (max start end_) b.mLength - min (min start end_) b.mLength) 0).update
          (min (min start end_) b.mLength) 0 text.length
      ∧ (replace b start end_ text).mSecondary
        = (b.mSecondary.update (min (min start end_) b.mLength)
          (min (max start end_) b.mLength - min (min start end_) b.mLength) 0).update
          (min (min start end_) b.mLength) 0 text.length
      ∧ (replace b start end_ text).mHighlight
        = (b.mHighlight.update (min (min start end_) b.mLength)
          (min (max start end_) b.mLength - min (min start end_) b.mLength) 0).update
          (min (min start end_) b.mLength) 0 text.length) := by
  refine ⟨?_, ?_, ?_⟩
  · simp only [insert]
    rw [if_neg (by simp [List.isEmpty_iff, htext])]
    split_ifs <;>
      exact ⟨(insert_fields _ _ _).1, (insert_fields _ _ _).2.1,
        (insert_fields _ _ _).2.2.1⟩
  · simp only [remove]
    rw [if_neg hne]
    split_ifs <;>
      exact ⟨(remove_fields _ _ _).1, (remove_fields _ _ _).2.1,
        (remove_fields _ _ _).2.2.1⟩
  · simp only [replace]
    split_ifs <;>
      exact ⟨(replace_sel_core _ _ _ _).1, (replace_sel_core _ _ _ _).2.1,
        (replace_sel_core _ _ _ _).2.2⟩

/-- Witness for C5: on the sample buffer, inserting one byte at 1 and
removing or replacing the range `[0,1)`. -/
theorem selections_updated_witness :
    (([7] : List Nat) ≠ []
      ∧ min (min 0 1) sampleBuf.mLength ≠ min (max 0 1) sampleBuf.mLength)
    ∧ (((insert sampleBuf 1 [7]).mPrimary
        = sampleBuf.mPrimary.update (min 1 sampleBuf.mLength) 0 ([7] : List Nat).length
      ∧ (insert sampleBuf 1 [7]).mSecondary
        = sampleBuf.mSecondary.update (min 1 sampleBuf.mLength) 0 ([7] : List Nat).length
      ∧ (insert sampleBuf 1 [7]).mHighlight
        = sampleBuf.mHighlight.update (min 1 sampleBuf.mLength) 0 ([7] : List Nat).length)
    ∧ ((remove sampleBuf 0 1).mPrimary
        = sampleBuf.mPrimary.update (min (min 0 1) sampleBuf.mLength)
          (min (max 0 1) sampleBuf.mLength - min (min 0 1) sampleBuf.mLength) 0
      ∧ (remove sampleBuf 0 1).mSecondary
        = sampleBuf.mSecondary.update (min (min 0 1) sampleBuf.mLength)
          (min (max 0 1) sampleBuf.mLength - min (min 0 1) sampleBuf.mLength) 0
      ∧ (remove sampleBuf 0 1).mHighlight
        = sampleBuf.mHighlight.update (min (min 0 1) sampleBuf.mLength)
          (min (max 0 1) sampleBuf.mLength - min (min 0 1) sampleBuf.mLength) 0)
    ∧ ((replace sampleBuf 0 1 [7]).mPrimary
        = (sampleBuf.mPrimary.update (min (min 0 1) sampleBuf.mLength)
          (min (max 0 1) sampleBuf.mLength - min (min 0 1) sampleBuf.mLength) 0).update
          (min (min 0 1) sampleBuf.mLength) 0 ([7] : List Nat).length
      ∧ (replace sampleBuf 0 1 [7]).mSecondary
        = (sampleBuf.mSecondary.update (min (min 0 1) sampleBuf.mLength)
          (min (max 0 1) sampleBuf.mLength - min (min 0 1) sampleBuf.mLength) 0).update
          (min (min 0 1) sampleBuf.mLength) 0 ([7] : List Nat).length
      ∧ (replace sampleBuf 0 1 [7]).mHighlight
        = (sampleBuf.mHighlight.update (min (min 0 1) sampleBuf.mLength)
          (min (max 0 1) sampleBuf.mLength - min (min 0 1) sampleBuf.mLength) 0).update
          (min (min 0 1) sampleBuf.mLength) 0 ([7] : List Nat).length)) :=
  ⟨⟨by decide, by decide⟩,
    selections_updated sampleBuf 1 0 1 [7] (by decide) (by decide)⟩

/-- C6: the undo log is append-only: each edit operation (insert, remove,
replace, text(const char*)) leaves the previous undo log a prefix of the
new one — entries are only appended, never removed or modified. -/
theorem undo_log_append_only (b : FlTextBuffer) (pos start end_ : Nat)
    (text t : List Nat) :
    b.mUndoList <+: (insert b pos text).mUndoList
    ∧ b.mUndoList <+: (remove b start end_).mUndoList
    ∧ b.mUndoList <+: (replace b start end_ text).mUndoList
    ∧ b.mUndoList <+: (text_set b t).mUndoList := by
  refine ⟨?_, ?_, ?_, ?_⟩
  · simp only [insert]
    split_ifs
    · exact List.prefix_refl _
    · exact List.prefix_append _ _
    · rw [(insert_fields _ _ _).2.2.2.2.1]
  · simp only [remove]
    split_ifs
    · exact List.prefix_refl _
    · exact List.prefix_append _ _
    · rw [(remove_fields _ _ _).2.2.2.2.1]
  · simp only [replace]
    split_ifs
    · exact List.prefix_append _ _
    · rw [(insert_fields _ _ _).2.2.2.2.1, (remove_fields _ _ _).2.2.2.2.1]
  · simp only [text_set]
    split_ifs
    · exact List.prefix_append _ _
    · exact List.prefix_refl _

end FlTextBuffer

/-! ## UTF-8 aware indexing

The bodies of `utf8_align`, `prev_char`, `prev_char_clipped` and
`next_char` are not in the excerpt; they are modelled from the spec
("gap-buffer text storage with UTF-8-aware indexing") and the header's
statement that "all indices used in the function calls must be aligned to
the start of a UTF-8 sequence" and "all indices and pointers returned will
be aligned". -/

/-- Modelled from the spec: a byte is a UTF-8 continuation byte when its
top two bits are `10`, i.e. it lies in `[0x80, 0xC0)`. -/
def isCont (c : Nat) : Bool := decide (0x80 ≤ c) && decide (c < 0xC0)

/-- Modelled from the spec: the byte length of the UTF-8 sequence announced
by a lead byte (the toolkit's `fl_utf8len1`, which maps invalid lead bytes
to 1). -/
def utf8len (c : Nat) : Nat :=
  if c < 0x80 then 1
  else if c < 0xC2 then 1
  else if c < 0xE0 then 2
  else if c < 0xF0 then 3
  else if c < 0xF5 then 4
  else 1

/-- A byte sequence is valid UTF-8 (in the sense relevant here) when it is
a concatenation of units: a non-continuation lead byte followed by exactly
`utf8len lead - 1` continuation bytes. -/
inductive ValidUTF8 : List Nat → Prop
  | nil : ValidUTF8 []
  | cons (lead : Nat) (conts rest : List Nat)
      (hlead : isCont lead = false)
      (hconts : ∀ x ∈ conts, isCont x = true)
      (hlen : conts.length + 1 = utf8len lead)
      (hrest : ValidUTF8 rest) :
      ValidUTF8 (lead :: conts ++ rest)

/-- List-level form of `utf8_align`: walk back over continuation bytes. -/
def utf8_alignL (c : List Nat) : Nat → Nat
  | 0 => 0
  | q + 1 => if isCont (c.getD (q + 1) 0) then utf8_alignL c q else q + 1

/-- List-level form of `next_char`: advance by the lead byte's announced
length, clipped to the end of the content. -/
def next_charL (c : List Nat) (p : Nat) : Nat :=
  min (p + utf8len (c.getD p 0)) c.length

theorem alignL_succ (c : List Nat) (q : Nat) :
    utf8_alignL c (q + 1)
      = if isCont (c.getD (q + 1) 0) then utf8_alignL c q else q + 1 := rfl

theorem utf8_alignL_le (c : List Nat) (p : Nat) : utf8_alignL c p ≤ p := by
  induction p with
  | zero => exact le_rfl
  | succ q ih =>
    rw [alignL_succ]
    split_ifs
    · omega
    · exact le_rfl

theorem utf8_alignL_boundary (c : List Nat) (p : Nat) :
    utf8_alignL c p = 0 ∨ isCont (c.getD (utf8_alignL c p) 0) = false := by
  induction p with
  | zero => exact Or.inl rfl
  | succ q ih =>
    rw [alignL_succ]
    split_ifs with hc
    · exact ih
    · exact Or.inr (by simpa using hc)

theorem utf8_alignL_fix (c : List Nat) (p : Nat)
    (h : isCont (c.getD p 0) = false) : utf8_alignL c p = p := by
  cases p with
  | zero => rfl
  | succ q =>
    rw [alignL_succ, if_neg (by simp only [h]; simp)]

theorem utf8_alignL_idem (c : List Nat) (p : Nat) :
    utf8_alignL c (utf8_alignL c p) = utf8_alignL c p := by
  rcases utf8_alignL_boundary c p with h | h
  · rw [h]
    rfl
  · exact utf8_alignL_fix c _ h

theorem getD_append_lt {α : Type} (l1 l2 : List α) (n : Nat) (d : α)
    (h : n < l1.length) : (l1 ++ l2).getD n d = l1.getD n d := by
  rw [List.getD_eq_getElem?_getD, List.getD_eq_getElem?_getD,
    List.getElem?_append, if_pos h]

theorem getD_append_ge {α : Type} (l1 l2 : List α) (n : Nat) (d : α)
    (h : l1.length ≤ n) : (l1 ++ l2).getD n d = l2.getD (n - l1.length) d := by
  rw [List.getD_eq_getElem?_getD, List.getD_eq_getElem?_getD,
    List.getElem?_append_right h]

theorem chunk_getD (lead : Nat) (conts rest : List Nat) (j : Nat) :
    (lead :: conts ++ rest).getD (conts.length + 1 + j) 0 = rest.getD j 0 := by
  rw [getD_append_ge _ _ _ _ (by simp only [List.length_cons]; omega)]
  congr 1
  simp only [List.length_cons]
  omega

theorem chunk_getD_cont (lead : Nat) (conts rest : List Nat)
    (hconts : ∀ x ∈ conts, isCont x = true) (q : Nat) (h1 : 1 ≤ q)
    (h2 : q ≤ conts.length) :
    isCont ((lead :: conts ++ rest).getD q 0) = true := by
  have hq : (lead :: conts ++ rest).getD q 0 = conts.getD (q - 1) 0 := by
    rcases q with _ | q0
    · omega
    · rw [getD_append_lt _ _ _ _ (by simp only [List.length_cons]; omega),
        List.getD_cons_succ]
      rfl
  rw [hq]
  apply hconts
  rw [List.getD_eq_getElem conts 0 (by omega)]
  exact List.getElem_mem _

theorem alignL_zero_of_all_cont (c : List Nat) (m : Nat)
    (hall : ∀ q, 1 ≤ q → q ≤ m → isCont (c.getD q 0) = true) :
    utf8_alignL c m = 0 := by
  induction m with
  | zero => rfl
  | succ m0 ih =>
    rw [alignL_succ, if_pos (hall (m0 + 1) (by omega) le_rfl)]
    exact ih fun q hq1 hq2 => hall q hq1 (by omega)

theorem valid_head_not_cont (rest : List Nat) (h : ValidUTF8 rest) :
    isCont (rest.getD 0 0) = false := by
  cases h with
  | nil => decide
  | cons lead conts r2 hlead _ _ _ => exact hlead

theorem alignL_chunk_shift (lead : Nat) (conts rest : List Nat)
    (hlead' : isCont (rest.getD 0 0) = false) (q : Nat) :
    utf8_alignL (lead :: conts ++ rest) (conts.length + 1 + q)
      = conts.length + 1 + utf8_alignL rest q := by
  induction q with
  | zero =>
    have h0 : isCont ((lead :: conts ++ rest).getD (conts.length + 1) 0) = false := by
      have hc := chunk_getD lead conts rest 0
      rw [Nat.add_zero] at hc
      rw [hc]
      exact hlead'
    rw [Nat.add_zero, alignL_succ, if_neg (by simp only [h0]; simp)]
    rfl
  | succ q0 ih =>
    have hsh := chunk_getD lead conts rest (q0 + 1)
    rw [show conts.length + 1 + (q0 + 1) = (conts.length + 1 + q0) + 1 by omega,
      alignL_succ,
      show (conts.length + 1 + q0) + 1 = conts.length + 1 + (q0 + 1) by omega,
      hsh, alignL_succ rest q0]
    by_cases hc : isCont (rest.getD (q0 + 1) 0) = true
    · rw [if_pos hc, if_pos hc, ih]
    · rw [if_neg hc, if_neg hc]

theorem next_charL_chunk_shift (lead : Nat) (conts rest : List Nat) (r : Nat) :
    next_charL (lead :: conts ++ rest) (conts.length + 1 + r)
      = conts.length + 1 + next_charL rest r := by
  unfold next_charL
  rw [chunk_getD lead conts rest r]
  simp only [List.length_cons, List.length_append]
  omega

theorem next_prevL (c : List Nat) (h : ValidUTF8 c) :
    ∀ p, 0 < p → p ≤ c.length → isCont (c.getD p 0) = false →
      next_charL c (utf8_alignL c (p - 1)) = p := by
  induction h with
  | nil =>
    intro p hp0 hpl _
    simp only [List.length_nil] at hpl
    omega
  | cons lead conts rest hlead hconts hlen hrest ih =>
    intro p hp0 hpl hb
    rcases lt_trichotomy p (conts.length + 1) with hlt | heq | hgt
    · exfalso
      have hcont := chunk_getD_cont lead conts rest hconts p hp0 (by omega)
      rw [hcont] at hb
      exact absurd hb (by simp)
    · subst heq
      have hA : utf8_alignL (lead :: conts ++ rest) (conts.length + 1 - 1) = 0 :=
        alignL_zero_of_all_cont _ _ fun q hq1 hq2 =>
          chunk_getD_cont lead conts rest hconts q hq1 (by omega)
      rw [hA]
      unfold next_charL
      rw [show (lead :: conts ++ rest).getD 0 0 = lead from rfl]
      simp only [List.length_append, List.length_cons]
      omega
    · have hlead' : isCont (rest.getD 0 0) = false := valid_head_not_cont rest hrest
      rw [show p = conts.length + 1 + (p - (conts.length + 1)) by omega] at hb
      rw [chunk_getD] at hb
      rw [show p - 1 = conts.length + 1 + (p - (conts.length + 1) - 1) by omega,
        alignL_chunk_shift lead conts rest hlead', next_charL_chunk_shift]
      have hpl' : p - (conts.length + 1) ≤ rest.length := by
        simp only [List.length_append, List.length_cons] at hpl
        omega
      rw [ih (p - (conts.length + 1)) (by omega) hpl' hb]
      omega

theorem next_charL_boundary (c : List Nat) (h : ValidUTF8 c) :
    ∀ p, p ≤ c.length → isCont (c.getD p 0) = false →
      isCont (c.getD (next_charL c p) 0) = false := by
  induction h with
  | nil =>
    intro p _ _
    rw [List.getD_nil]
    decide
  | cons lead conts rest hlead hconts hlen hrest ih =>
    intro p hpl hb
    have hlead' : isCont (rest.getD 0 0) = false := valid_head_not_cont rest hrest
    rcases Nat.eq_zero_or_pos p with hp0 | hppos
    · subst hp0
      have hnx : next_charL (lead :: conts ++ rest) 0 = conts.length + 1 := by
        unfold next_charL
        rw [show (lead :: conts ++ rest).getD 0 0 = lead from rfl]
        simp only [List.length_append, List.length_cons]
        omega
      rw [hnx, show conts.length + 1 = conts.length + 1 + 0 by omega, chunk_getD]
      exact hlead'
    · rcases lt_or_le p (conts.length + 1) with hlt | hge
      · exfalso
        have hcont := chunk_getD_cont lead conts rest hconts p hppos (by omega)
        rw [hcont] at hb
        exact absurd hb (by simp)
      · rw [show p = conts.length + 1 + (p - (conts.length + 1)) by omega] at hb ⊢
        rw [chunk_getD] at hb
        rw [next_charL_chunk_shift, chunk_getD]
        have hpl' : p - (conts.length + 1) ≤ rest.length := by
          simp only [List.length_append, List.length_cons] at hpl
          omega
        exact ih (p - (conts.length + 1)) hpl' hb

namespace FlTextBuffer

/-- Modelled from the spec: `utf8_align` "aligns an index into the buffer
to the current or previous UTF-8 boundary" (header doc) by walking back
over continuation bytes read through `byte_at`. -/
def utf8_align (b : FlTextBuffer) : Nat → Nat
  | 0 => 0
  | q + 1 => if isCont (byte_at b (q + 1)) then utf8_align b q else q + 1

/-- Modelled from the spec: `prev_char_clipped` steps one byte back and
aligns to the previous UTF-8 boundary, never below 0. -/
def prev_char_clipped (b : FlTextBuffer) (ix : Nat) : Nat :=
  if ix = 0 then 0 else utf8_align b (ix - 1)

/-- Modelled from the spec: `prev_char` "returns the index of the previous
character" (header doc), or -1 when already at the start. -/
def prev_char (b : FlTextBuffer) (ix : Nat) : Int :=
  if ix = 0 then -1 else prev_char_clipped b ix

/-- Modelled from the spec: `next_char` "returns the index of the next
character" (header doc): it advances by the byte length announced by the
lead byte at `ix`, clipped to `length()`. -/
def next_char (b : FlTextBuffer) (ix : Nat) : Nat :=
  if b.mLength ≤ ix + utf8len (byte_at b ix) then b.mLength
  else ix + utf8len (byte_at b ix)

theorem utf8_align_succ (b : FlTextBuffer) (q : Nat) :
    utf8_align b (q + 1)
      = if isCont (byte_at b (q + 1)) then utf8_align b q else q + 1 := rfl

theorem byte_at_eq_getD (b : FlTextBuffer) (h : Inv b) (p : Nat) :
    byte_at b p = b.content.getD p 0 := by
  have hcl := content_length b h
  rcases lt_or_le p b.mLength with hlt | hge
  · exact byte_at_content b p h hlt
  · obtain ⟨h1, h2, h3⟩ := h
    have hgs : b.mGapStart ≤ b.mLength := by omega
    unfold byte_at address
    rw [if_neg (by omega), List.getD_eq_default _ _ (by omega),
      List.getD_eq_default _ _ (by omega)]

theorem utf8_align_eqL (b : FlTextBuffer) (h : Inv b) (p : Nat) :
    utf8_align b p = utf8_alignL b.content p := by
  induction p with
  | zero => rfl
  | succ q ih =>
    rw [utf8_align_succ, alignL_succ, byte_at_eq_getD b h, ih]

theorem next_char_eqL (b : FlTextBuffer) (h : Inv b) (p : Nat) :
    next_char b p = next_charL b.content p := by
  unfold next_char next_charL
  rw [byte_at_eq_getD b h, content_length b h]
  split_ifs <;> omega

/-- C8: UTF-8-aware indexing is self-consistent on buffers holding valid
UTF-8 (the class documentation requires all text to be UTF-8 encoded): for
every byte position `p ≤ length()`, `utf8_align(p) ≤ p` lands on a
character boundary and is idempotent; `prev_char`/`prev_char_clipped`
return boundary positions; `next_char` of a boundary is a boundary; and for
`p` at a boundary with `0 < p`, `next_char(prev_char(p)) = p`. -/
theorem utf8_indexing (b : FlTextBuffer) (h : Inv b) (hv : ValidUTF8 b.content)
    (p : Nat) (hp : p ≤ b.length) :
    (utf8_align b p ≤ p
      ∧ (utf8_align b p = 0 ∨ isCont (byte_at b (utf8_align b p)) = false)
      ∧ utf8_align b (utf8_align b p) = utf8_align b p)
    ∧ (0 < p →
        prev_char b p = (prev_char_clipped b p : Int)
        ∧ (prev_char_clipped b p = 0
          ∨ isCont (byte_at b (prev_char_clipped b p)) = false))
    ∧ (isCont (byte_at b p) = false →
        isCont (byte_at b (next_char b p)) = false
        ∧ (0 < p → next_char b (prev_char_clipped b p) = p)) := by
  have hcl := content_length b h
  have hAeq := utf8_align_eqL b h
  have hNeq := next_char_eqL b h
  have hple : p ≤ b.content.length := by
    rw [hcl]
    exact hp
  refine ⟨⟨?_, ?_, ?_⟩, ?_, ?_⟩
  · rw [hAeq]
    exact utf8_alignL_le _ _
  · rw [hAeq, byte_at_eq_getD b h]
    exact utf8_alignL_boundary _ _
  · simp only [hAeq]
    exact utf8_alignL_idem _ _
  · intro hp0
    constructor
    · unfold prev_char
      rw [if_neg (by omega)]
    · unfold prev_char_clipped
      rw [if_neg (by omega), hAeq, byte_at_eq_getD b h]
      exact utf8_alignL_boundary _ _
  · intro hb
    rw [byte_at_eq_getD b h] at hb
    constructor
    · rw [hNeq, byte_at_eq_getD b h]
      exact next_charL_boundary b.content hv p hple hb
    · intro hp0
      unfold prev_char_clipped
      rw [if_neg (by omega), hNeq, hAeq]
      exact next_prevL b.content hv p hp0 hple hb

end FlTextBuffer

/-- A sample buffer holding the valid UTF-8 text "aé"
(bytes `[0x61, 0xC3, 0xA9]`). -/
def utf8Buf : FlTextBuffer :=
  FlTextBuffer.insert (FlTextBuffer.mkBuffer 0 4) 0 [97, 195, 169]

theorem utf8Buf_valid : ValidUTF8 utf8Buf.content :=
  ValidUTF8.cons 97 [] [195, 169] (by decide) (by decide) (by decide)
    (ValidUTF8.cons 195 [169] [] (by decide) (by decide) (by decide)
      ValidUTF8.nil)

/-- Witness for C8: position 1 of the buffer "aé" is the boundary between
the two characters. -/
theorem utf8_indexing_witness :
    (FlTextBuffer.Inv utf8Buf ∧ ValidUTF8 utf8Buf.content
      ∧ 1 ≤ utf8Buf.length)
    ∧ ((FlTextBuffer.utf8_align utf8Buf 1 ≤ 1
      ∧ (FlTextBuffer.utf8_align utf8Buf 1 = 0
        ∨ isCont (FlTextBuffer.byte_at utf8Buf
            (FlTextBuffer.utf8_align utf8Buf 1)) = false)
      ∧ FlTextBuffer.utf8_align utf8Buf (FlTextBuffer.utf8_align utf8Buf 1)
        = FlTextBuffer.utf8_align utf8Buf 1)
    ∧ (0 < 1 →
        FlTextBuffer.prev_char utf8Buf 1
          = (FlTextBuffer.prev_char_clipped utf8Buf 1 : Int)
        ∧ (FlTextBuffer.prev_char_clipped utf8Buf 1 = 0
          ∨ isCont (FlTextBuffer.byte_at utf8Buf
              (FlTextBuffer.prev_char_clipped utf8Buf 1)) = false))
    ∧ (isCont (FlTextBuffer.byte_at utf8Buf 1) = false →
        isCont (FlTextBuffer.byte_at utf8Buf
          (FlTextBuffer.next_char utf8Buf 1)) = false
        ∧ (0 < 1 → FlTextBuffer.next_char utf8Buf
            (FlTextBuffer.prev_char_clipped utf8Buf 1) = 1))) :=
  ⟨⟨by decide, utf8Buf_valid, by decide⟩,
    FlTextBuffer.utf8_indexing utf8Buf (by decide) utf8Buf_valid 1 (by decide)⟩

/-- C3 counterexample: the claim fails as stated, because the raw flag
setter `selected(bool)` (inline in the header:
`void selected(bool b) { mSelected = b; }`) is among the allowed calls: one
`selected(true)` call on a freshly constructed (empty) selection reaches a
state with `selected()` true but `start() = end() = 0`, violating
`start() < end()`. -/
theorem selection_invariant_cex :
    FlTextSelection.Reach ⟨0, 0, true⟩
    ∧ FlTextSelection.selected ⟨0, 0, true⟩ = true
    ∧ ¬(FlTextSelection.start ⟨0, 0, true⟩ < FlTextSelection.end_ ⟨0, 0, true⟩) :=
  ⟨FlTextSelection.Reach.selected_set FlTextSelection.init true
      FlTextSelection.Reach.init,
    rfl, by decide⟩

/-- C3 (amended): for every selection state reachable by any sequence of
`set()`, `update()` and `selected(false)` calls — the raw `selected(true)`
setter excluded — `selected()` implies `start() < end()`, and when
`selected()` is false both `start()` and `end()` return 0. -/
theorem selection_invariant (s : FlTextSelection)
    (h : FlTextSelection.ReachSafe s) :
    (FlTextSelection.selected s = true →
      FlTextSelection.start s < FlTextSelection.end_ s)
    ∧ (FlTextSelection.selected s = false →
      FlTextSelection.start s = 0 ∧ FlTextSelection.end_ s = 0) := by
  have hinv := FlTextSelection.selInv_reachSafe s h
  constructor
  · intro hsel
    unfold FlTextSelection.selected at hsel
    unfold FlTextSelection.start FlTextSelection.end_
    rw [if_pos hsel, if_pos hsel]
    exact hinv hsel
  · intro hsel
    unfold FlTextSelection.selected at hsel
    unfold FlTextSelection.start FlTextSelection.end_
    rw [if_neg (by simp [hsel]), if_neg (by simp [hsel])]
    exact ⟨rfl, rfl⟩

/-- Witness for the amended C3: the state reached by `set(2, 5)` from a
fresh selection. -/
theorem selection_invariant_witness :
    FlTextSelection.ReachSafe (FlTextSelection.set FlTextSelection.init 2 5)
    ∧ ((FlTextSelection.selected (FlTextSelection.set FlTextSelection.init 2 5)
          = true →
        FlTextSelection.start (FlTextSelection.set FlTextSelection.init 2 5)
          < FlTextSelection.end_ (FlTextSelection.set FlTextSelection.init 2 5))
      ∧ (FlTextSelection.selected (FlTextSelection.set FlTextSelection.init 2 5)
          = false →
        FlTextSelection.start (FlTextSelection.set FlTextSelection.init 2 5) = 0
        ∧ FlTextSelection.end_ (FlTextSelection.set FlTextSelection.init 2 5)
          = 0)) :=
  ⟨FlTextSelection.ReachSafe.set _ 2 5 FlTextSelection.ReachSafe.init,
    selection_invariant _ (FlTextSelection.ReachSafe.set _ 2 5
      FlTextSelection.ReachSafe.init)⟩

end FltkGo
